import Mathlib

/-!
# Verification of the cp3-dsp engine specification

The repository ships only the C FFI header (src/cp3_dsp.h): constants
(A4_FREQ, A4_MIDI, MAX_BUFFER_SIZE, VOICE_COUNT) and the exported function
signatures.  The engine behind the header is not part of src/, so the
behavioural definitions below are modelled from the specification
(spec.md sections 2 to 7): transport arithmetic, the event store, the
command queue, the per-block scheduler, the voice allocator and the
render loop.  Samples are exact rationals (the shallow embedding of the
float pipeline), times are integers (absolute sample positions), and the
opaque per-voice sound generator of the spec is instantiated with a
deterministic placeholder state machine over the Idle, Attacking,
Sustaining and Releasing life cycle.
-/

namespace CP3

/-- Constant from src/cp3_dsp.h line 11. -/
def A4_FREQ : ℚ := 440

/-- Constant from src/cp3_dsp.h line 13. -/
def A4_MIDI : ℤ := 69

/-- Constant from src/cp3_dsp.h line 15. -/
def MAX_BUFFER_SIZE : ℤ := 8192

/-- Constant from src/cp3_dsp.h line 17: one voice per track pool. -/
def VOICE_COUNT : ℕ := 1

/-- Modelled from the spec: the number of track lanes.  The spec keeps the
track count open (tracks are int8 lanes, unknown tracks are ignored); we fix
eight lanes.  No claim depends on the particular number. -/
def NUM_TRACKS : ℕ := 8

/-- Modelled from the spec (section 4.3): recommended command queue
capacity of 1024 slots. -/
def QUEUE_CAPACITY : ℕ := 1024

/-- A scheduled note event (spec section 3, inserted by add_event). -/
structure Event where
  beat_time : ℚ
  pitch : ℤ
  velocity : ℤ
  duration : ℚ
  track : ℤ
  param1 : ℚ
  param2 : ℚ
deriving DecidableEq

/-- Voice life cycle states (spec section 3). -/
inductive VoiceState
  | Idle
  | Attacking
  | Sustaining
  | Releasing
deriving DecidableEq

/-- Modelled from the spec: attack length, in samples, of the placeholder
generator standing in for the opaque voice DSP. -/
def ATTACK_LEN : ℕ := 2

/-- Modelled from the spec: release length, in samples, of the placeholder
generator; a Releasing voice decays for this many samples and then reports
completion, transitioning to Idle. -/
def RELEASE_LEN : ℕ := 4

/-- A physical voice slot (spec section 3): life cycle state, note data,
selected sound, forwarded parameters, and the placeholder generator state
(phase counters). -/
structure Voice where
  state : VoiceState
  pitch : ℤ
  velocity : ℤ
  sound : ℤ
  param1 : ℚ
  param2 : ℚ
  phase : ℕ
  releasePhase : ℕ
deriving DecidableEq

def idleVoice : Voice := ⟨.Idle, 0, 0, 0, 0, 0, 0, 0⟩

instance : Inhabited Voice := ⟨idleVoice⟩

/-- Modelled from the spec: one output sample of the placeholder generator.
Idle voices are silent; Releasing voices produce decaying output. -/
def voiceOut (v : Voice) : ℚ :=
  match v.state with
  | .Idle => 0
  | .Releasing => (v.velocity : ℚ) / 127 * (((RELEASE_LEN - v.releasePhase : ℕ) : ℚ) / (RELEASE_LEN : ℚ))
  | _ => (v.velocity : ℚ) / 127

/-- Modelled from the spec: advance the placeholder generator by one sample.
A Releasing voice decays until the generator reports completion and then
transitions to Idle (spec section 3 invariant). -/
def voiceAdvance1 (v : Voice) : Voice :=
  match v.state with
  | .Idle => v
  | .Attacking =>
    if ATTACK_LEN ≤ v.phase + 1 then { v with state := .Sustaining, phase := v.phase + 1 }
    else { v with phase := v.phase + 1 }
  | .Sustaining => { v with phase := v.phase + 1 }
  | .Releasing =>
    if RELEASE_LEN ≤ v.releasePhase + 1 then { v with state := .Idle }
    else { v with phase := v.phase + 1, releasePhase := v.releasePhase + 1 }

/-- A NoteOff deferred past its originating block, keyed by
(track, pitch, absolute sample time) (spec section 4.4 step 2). -/
structure PendingOff where
  track : ℤ
  pitch : ℤ
  absTime : ℤ
deriving DecidableEq

/-- Host-to-render commands (spec section 3): the tagged Command variant,
plus the store commands that add_event and clear_events enqueue. -/
inductive Command
  | NoteOn (pitch velocity track : ℤ) (param1 param2 : ℚ)
  | NoteOff (pitch track : ℤ)
  | SetSound (sound track : ℤ)
  | SetParameter (parameter : ℤ) (value : ℚ) (track : ℤ)
  | SetPlayPause (playing : Bool)
  | InsertEvent (e : Event)
  | ClearEvents
deriving DecidableEq

/-- The engine root entity (spec section 3): transport data, event store,
pending-off list, voice bank, per-track sound selection, parameter store,
and the command queue contents. -/
structure EngineState where
  sample_rate : ℚ
  is_playing : Bool
  events : List Event
  pendingOffs : List PendingOff
  voices : List Voice
  sounds : List ℤ
  params : List ((ℤ × ℤ) × ℚ)
  queue : List Command
deriving DecidableEq

/-- engine_init (src/cp3_dsp.h line 29): fresh engine with the given sample
rate, paused, empty stores, all voices Idle. -/
def engine_init (sample_rate : ℚ) : EngineState :=
  ⟨sample_rate, false, [], [], List.replicate NUM_TRACKS idleVoice,
    List.replicate NUM_TRACKS 0, [], []⟩

/-- Modelled from the spec (section 4.3): NoteOff commands are critical and
must never be dropped. -/
def isCritical : Command → Bool
  | .NoteOff _ _ => true
  | _ => false

/-- Modelled from the spec (section 4.3): drop the oldest non-critical
command of a full queue. -/
def dropOldestNonCritical : List Command → List Command
  | [] => []
  | c :: rest => if isCritical c then c :: dropOldestNonCritical rest else rest

/-- Modelled from the spec (section 4.3): wait-free enqueue of fixed
capacity; when full, the oldest non-critical command may be dropped, a
non-critical newcomer may be discarded, but a NoteOff is always accepted. -/
def enqueue (q : List Command) (c : Command) : List Command :=
  if q.length < QUEUE_CAPACITY then q ++ [c]
  else if q.any (fun x => !isCritical x) then dropOldestNonCritical q ++ [c]
  else if isCritical c then q ++ [c]
  else q

/-- Clip a pitch or velocity into 0..127 (spec section 7). -/
def clip7 (x : ℤ) : ℤ := max 0 (min 127 x)

/-- add_event (src/cp3_dsp.h lines 33-39): enqueues a score insertion
(spec section 4.2); pitch and velocity are clipped, events with negative
beat time or duration are silently dropped (spec section 7). -/
def add_event (s : EngineState) (beat_time : ℚ) (pitch velocity : ℤ) (duration : ℚ)
    (track : ℤ) (param1 param2 : ℚ) : EngineState :=
  if 0 ≤ beat_time ∧ 0 ≤ duration then
    let e : Event := ⟨beat_time, clip7 pitch, clip7 velocity, duration, track, param1, param2⟩
    { s with queue := enqueue s.queue (.InsertEvent e) }
  else s

/-- note_on (src/cp3_dsp.h lines 41-46): enqueues a live note-on. -/
def note_on (s : EngineState) (pitch velocity track : ℤ) (param1 param2 : ℚ) : EngineState :=
  { s with queue := enqueue s.queue (.NoteOn (clip7 pitch) (clip7 velocity) track param1 param2) }

/-- note_off (src/cp3_dsp.h line 48): enqueues a live note-off. -/
def note_off (s : EngineState) (pitch track : ℤ) : EngineState :=
  { s with queue := enqueue s.queue (.NoteOff pitch track) }

/-- set_sound (src/cp3_dsp.h line 50): enqueues a sound selection. -/
def set_sound (s : EngineState) (sound track : ℤ) : EngineState :=
  { s with queue := enqueue s.queue (.SetSound sound track) }

/-- set_parameter (src/cp3_dsp.h line 52): enqueues a parameter change. -/
def set_parameter (s : EngineState) (parameter : ℤ) (value : ℚ) (track : ℤ) : EngineState :=
  { s with queue := enqueue s.queue (.SetParameter parameter value track) }

/-- set_play_pause (src/cp3_dsp.h line 31): enqueues a transport command. -/
def set_play_pause (s : EngineState) (playing : Bool) : EngineState :=
  { s with queue := enqueue s.queue (.SetPlayPause playing) }

/-- clear_events (src/cp3_dsp.h line 54): enqueues a store reset. -/
def clear_events (s : EngineState) : EngineState :=
  { s with queue := enqueue s.queue .ClearEvents }

/-- A track index is valid when it names one of the NUM_TRACKS lanes;
unknown tracks are ignored (spec section 7). -/
def validTrack (track : ℤ) : Bool := decide (0 ≤ track ∧ track < (NUM_TRACKS : ℤ))

/-- A freshly (re)started voice: enters Attacking with the new note data and
reset generator state (spec section 4.5). -/
def freshVoice (pitch velocity sound : ℤ) (param1 param2 : ℚ) : Voice :=
  ⟨.Attacking, pitch, velocity, sound, param1, param2, 0, 0⟩

/-- Modelled from the spec (section 4.5): voice allocation.  With
VOICE_COUNT = 1 (src/cp3_dsp.h line 17) each track pool holds a single
voice, so the three spec branches collapse: a matching non-Idle voice is
retriggered (re-enters Attacking), an Idle voice is started, and otherwise
the single voice is stolen; in all three cases the track's one voice
restarts with the new note.  The mandated anti-click ramp on steal is a
generator-internal concern not observable through the placeholder
generator. -/
def voicesNoteOn (vs : List Voice) (sounds : List ℤ) (pitch velocity track : ℤ)
    (param1 param2 : ℚ) : List Voice :=
  if validTrack track then
    vs.set track.toNat (freshVoice pitch velocity (sounds.getD track.toNat 0) param1 param2)
  else vs

/-- Modelled from the spec (section 4.5): release transitions a matching
voice in Attacking or Sustaining to Releasing; Releasing voices are not
re-released; no-op otherwise. -/
def releaseVoice (v : Voice) (pitch : ℤ) : Voice :=
  if v.pitch = pitch ∧ (v.state = .Attacking ∨ v.state = .Sustaining) then
    { v with state := .Releasing, releasePhase := 0 }
  else v

/-- Modelled from the spec (section 4.5): note-off routing to the track's
pool. -/
def voicesNoteOff (vs : List Voice) (pitch track : ℤ) : List Voice :=
  if validTrack track then
    vs.set track.toNat (releaseVoice (vs.getD track.toNat idleVoice) pitch)
  else vs

/-- Transport arithmetic (spec section 4.1): beats advanced per sample. -/
def beatsPerSample (sample_rate tempo : ℚ) : ℚ := tempo / (60 * sample_rate)

/-- Transport arithmetic (spec section 4.1): the beat position of an
absolute sample time. -/
def beatAt (sample_rate tempo : ℚ) (s : ℤ) : ℚ := s * beatsPerSample sample_rate tempo

/-- A scheduler output action (spec section 4.4). -/
inductive Action
  | SetParameter (parameter : ℤ) (value : ℚ) (track : ℤ)
  | SetSound (sound track : ℤ)
  | NoteOff (pitch track : ℤ)
  | NoteOn (pitch velocity track : ℤ) (param1 param2 : ℚ)
deriving DecidableEq

/-- The spec section 4.4 tie-break rank: SetParameter, SetSound, NoteOff,
NoteOn. -/
def actionRank : Action → ℕ
  | .SetParameter .. => 0
  | .SetSound .. => 1
  | .NoteOff .. => 2
  | .NoteOn .. => 3

/-- The per-block scheduling context: a snapshot of the post-drain engine
plus the block parameters sample time, tempo and frame count. -/
structure Ctx where
  events : List Event
  pend : List PendingOff
  playing : Bool
  sr : ℚ
  tempo : ℚ
  t : ℤ
  n : ℕ
deriving DecidableEq

/-- Modelled from the spec (section 4.4 step 2): the in-block sample offset
of an event's NoteOn, round((beat_time - beat_start) / beats_per_sample). -/
def onOffset (sr tempo : ℚ) (t : ℤ) (e : Event) : ℤ :=
  round ((e.beat_time - beatAt sr tempo t) / beatsPerSample sr tempo)

/-- Modelled from the spec (section 4.4 step 2): the in-block sample offset
of an event's NoteOff, computed from beat_time + duration. -/
def offOffset (sr tempo : ℚ) (t : ℤ) (e : Event) : ℤ :=
  round ((e.beat_time + e.duration - beatAt sr tempo t) / beatsPerSample sr tempo)

/-- Modelled from the spec (section 4.2): an event is due in the block when
its beat time lies in the half-open window [beat_start, beat_end). -/
def windowedb (C : Ctx) (e : Event) : Bool :=
  decide (beatAt C.sr C.tempo C.t ≤ e.beat_time ∧
    e.beat_time < beatAt C.sr C.tempo (C.t + (C.n : ℤ)))

def mkOn (e : Event) : Action := .NoteOn e.pitch e.velocity e.track e.param1 e.param2

def mkOff (e : Event) : Action := .NoteOff e.pitch e.track

/-- Modelled from the spec (section 4.4 step 2): pending NoteOffs consumed
by this block, those whose absolute time has been reached, applied at their
absolute position (clamped below at offset 0). -/
def pendOffsAt (C : Ctx) (o : ℤ) : List Action :=
  if C.playing then
    (C.pend.filter (fun p => decide (p.absTime ≤ C.t + (C.n : ℤ) ∧ max 0 (p.absTime - C.t) = o))).map
      (fun p => .NoteOff p.pitch p.track)
  else []

/-- Modelled from the spec (section 4.4 step 2): matching NoteOffs of due
events whose computed offset lies inside the block (offsets beyond
num_frames are deferred instead). -/
def schedOffsAt (C : Ctx) (o : ℤ) : List Action :=
  if C.playing then
    (C.events.filter (fun e => windowedb C e &&
      decide (0 < e.duration ∧ offOffset C.sr C.tempo C.t e ≤ (C.n : ℤ) ∧
        offOffset C.sr C.tempo C.t e = o))).map mkOff
  else []

/-- Modelled from the spec (section 4.4 step 2): NoteOns of due events at
their rounded sample offset. -/
def schedOnsAt (C : Ctx) (o : ℤ) : List Action :=
  if C.playing then
    (C.events.filter (fun e => windowedb C e &&
      decide (onOffset C.sr C.tempo C.t e = o))).map mkOn
  else []

/-- All scheduled actions applied at offset o of the block: consumed pending
NoteOffs first, then in-block NoteOffs, then NoteOns (spec section 4.4
tie-break: NoteOff before NoteOn at equal offset). -/
def batchAt (C : Ctx) (o : ℤ) : List Action :=
  pendOffsAt C o ++ schedOffsAt C o ++ schedOnsAt C o

/-- Apply one scheduler action to the voice bank.  Sound and parameter
changes do not touch voices (they are applied in the live pre-pass). -/
def applyAct (sounds : List ℤ) (vs : List Voice) : Action → List Voice
  | .NoteOn pitch velocity track param1 param2 => voicesNoteOn vs sounds pitch velocity track param1 param2
  | .NoteOff pitch track => voicesNoteOff vs pitch track
  | _ => vs

def applyBatch (sounds : List ℤ) (vs : List Voice) (acts : List Action) : List Voice :=
  acts.foldl (applyAct sounds) vs

/-- One mixed output sample of the voice bank (spec section 4.6: the
sub-slice is zeroed once, then all voices accumulate). -/
def bankOut (vs : List Voice) : ℚ := (vs.map voiceOut).sum

def bankAdvance (vs : List Voice) : List Voice := vs.map voiceAdvance1

/-- Modelled from the spec (section 4.6): the render loop.  At each offset
o the actions due at o are applied, then one sample is produced and the
bank advances; after the last sample the sentinel batch at offset
num_frames is applied. -/
def runLoop (C : Ctx) (sounds : List ℤ) : List Voice → ℤ → ℕ → List Voice × List ℚ
  | vs, o, 0 => (applyBatch sounds vs (batchAt C o), [])
  | vs, o, Nat.succ k =>
    let vs1 := applyBatch sounds vs (batchAt C o)
    let x := bankOut vs1
    let vs2 := bankAdvance vs1
    let r := runLoop C sounds vs2 (o + 1) k
    (r.1, x :: r.2)

/-- Modelled from the spec (section 4.2): stable sorted insertion into the
event store; equal beat times keep insertion order. -/
def insertSorted (e : Event) : List Event → List Event
  | [] => [e]
  | f :: rest =>
    if f.beat_time ≤ e.beat_time then f :: insertSorted e rest
    else e :: f :: rest

/-- Apply a store or transport command at block start (spec section 4.4
step 1); live commands are handled separately. -/
def applyStoreCmd (s : EngineState) : Command → EngineState
  | .InsertEvent e => { s with events := insertSorted e s.events }
  | .ClearEvents => { s with events := [] }
  | .SetPlayPause b => { s with is_playing := b }
  | _ => s

def isLiveCmd : Command → Bool
  | .NoteOn .. => true
  | .NoteOff .. => true
  | .SetSound .. => true
  | .SetParameter .. => true
  | _ => false

/-- Modelled from the spec (section 4.4 step 1): drain the command queue at
block start; store and transport commands are applied, live commands are
collected in enqueue order. -/
def drainQueue (s : EngineState) : EngineState × List Command :=
  (s.queue.foldl applyStoreCmd { s with queue := [] }, s.queue.filter isLiveCmd)

def setSoundAt (sounds : List ℤ) (sound track : ℤ) : List ℤ :=
  if validTrack track then sounds.set track.toNat sound else sounds

def setParamAt (params : List ((ℤ × ℤ) × ℚ)) (parameter : ℤ) (value : ℚ) (track : ℤ) :
    List ((ℤ × ℤ) × ℚ) :=
  ((parameter, track), value) :: params.filter (fun kv => !decide (kv.1 = (parameter, track)))

/-- Apply one live command at offset 0 of the block (spec section 4.4
step 3: live commands precede scheduled events at offset 0). -/
def applyLiveCmd (s : EngineState) : Command → EngineState
  | .NoteOn pitch velocity track param1 param2 =>
    { s with voices := voicesNoteOn s.voices s.sounds pitch velocity track param1 param2 }
  | .NoteOff pitch track => { s with voices := voicesNoteOff s.voices pitch track }
  | .SetSound sound track => { s with sounds := setSoundAt s.sounds sound track }
  | .SetParameter parameter value track => { s with params := setParamAt s.params parameter value track }
  | _ => s

def ctxOf (s : EngineState) (t : ℤ) (tempo : ℚ) (n : ℕ) : Ctx :=
  ⟨s.events, s.pendingOffs, s.is_playing, s.sample_rate, tempo, t, n⟩

/-- Modelled from the spec (section 4.4 step 2): the pending-off list after
a block; reached entries were consumed, NoteOffs of due events falling
beyond num_frames are deferred, keyed by (track, pitch, absolute sample
time). -/
def newPending (s : EngineState) (t : ℤ) (tempo : ℚ) (n : ℕ) : List PendingOff :=
  if s.is_playing then
    s.pendingOffs.filter (fun p => !decide (p.absTime ≤ t + (n : ℤ))) ++
    (s.events.filter (fun e => windowedb (ctxOf s t tempo n) e &&
      decide (0 < e.duration ∧ (n : ℤ) < offOffset s.sample_rate tempo t e))).map
      (fun e => ⟨e.track, e.pitch, t + offOffset s.sample_rate tempo t e⟩)
  else s.pendingOffs

/-- Modelled from the spec (sections 4.4 and 4.6): one render block.
Drains the queue, applies live commands at offset 0, runs the scheduler
and render loop over the block, and updates the pending-off list. -/
def renderBlock (s : EngineState) (t : ℤ) (tempo : ℚ) (n : ℕ) : EngineState × List ℚ :=
  let d := drainQueue s
  let s2 := d.2.foldl applyLiveCmd d.1
  let r := runLoop (ctxOf s2 t tempo n) s2.sounds s2.voices 0 n
  ({ s2 with voices := r.1, pendingOffs := newPending s2 t tempo n }, r.2)

/-- A consecutive run of render blocks of the given sizes, outputs
concatenated. -/
def runBlocks (s : EngineState) (t : ℤ) (tempo : ℚ) : List ℕ → EngineState × List ℚ
  | [] => (s, [])
  | n :: rest =>
    let r1 := renderBlock s t tempo n
    let r2 := runBlocks r1.1 (t + n) tempo rest
    (r2.1, r1.2 ++ r2.2)

/-- The NoteOn actions a block applies, in application order. -/
def ctxOns (C : Ctx) : List Action :=
  (List.range (C.n + 1)).flatMap (fun (o : ℕ) => schedOnsAt C (o : ℤ))

/-- The NoteOff actions a block applies (consumed pending offs and in-block
offs), each with its absolute sample time, in application order. -/
def ctxOffsTimed (C : Ctx) : List (ℤ × Action) :=
  (List.range (C.n + 1)).flatMap
    (fun (o : ℕ) => (pendOffsAt C (o : ℤ) ++ schedOffsAt C (o : ℤ)).map
      (fun a => (C.t + (o : ℤ), a)))

/-- The NoteOff actions delivered across a consecutive run of blocks, with
their absolute sample times. -/
def runOffs (s : EngineState) (t : ℤ) (tempo : ℚ) : List ℕ → List (ℤ × Action)
  | [] => []
  | n :: rest =>
    ctxOffsTimed (ctxOf s t tempo n) ++ runOffs (renderBlock s t tempo n).1 (t + (n : ℤ)) tempo rest

def cmdAction : Command → Option Action
  | .NoteOn pitch velocity track param1 param2 => some (.NoteOn pitch velocity track param1 param2)
  | .NoteOff pitch track => some (.NoteOff pitch track)
  | .SetSound sound track => some (.SetSound sound track)
  | .SetParameter parameter value track => some (.SetParameter parameter value track)
  | _ => none

/-- The full application order of a block: entries are (offset, isLive,
action); live commands at offset 0 in enqueue order, then the scheduled
batches in offset order. -/
def blockLog (s : EngineState) (t : ℤ) (tempo : ℚ) (n : ℕ) : List (ℤ × Bool × Action) :=
  let d := drainQueue s
  ((d.2.filterMap cmdAction).map (fun a => ((0 : ℤ), true, a))) ++
  (List.range (n + 1)).flatMap
    (fun (o : ℕ) => (batchAt (ctxOf d.1 t tempo n) (o : ℤ)).map
      (fun a => ((o : ℤ), false, a)))

/-- Modelled from the spec (sections 6 and 7): the render FFI entry point.
A missing engine or buffer stands for a null pointer and tempo finiteness
is an explicit flag, since neither pointers nor IEEE specials exist in the
rational model.  Render never returns an error: invalid inputs are clamped
or ignored and the buffers are zeroed; otherwise the engine overwrites the
caller's buffers with the rendered block. -/
def render (engine : Option EngineState) (bufL bufR : Option (List ℚ)) (sample_time : ℤ)
    (tempo_finite : Bool) (tempo : ℚ) (num_frames : ℤ) :
    Option EngineState × (List ℚ × List ℚ) :=
  let nf := (min num_frames MAX_BUFFER_SIZE).toNat
  match engine, bufL, bufR with
  | some s, some _, some _ =>
    if tempo_finite ∧ 0 ≤ num_frames ∧ num_frames ≤ MAX_BUFFER_SIZE then
      let r := renderBlock s sample_time tempo nf
      (some r.1, (r.2, r.2))
    else (some s, (List.replicate nf 0, List.replicate nf 0))
  | _, _, _ => (engine, (List.replicate nf 0, List.replicate nf 0))

def countNoteOffs (q : List Command) : ℕ := q.countP isCritical

/-- The number of non-Idle voices currently assigned to a given
(track, pitch) pair; the voice at index i belongs to track i. -/
def nonIdleCount (vs : List Voice) (track pitch : ℤ) : ℕ :=
  ((List.range vs.length).filter (fun (i : ℕ) =>
    decide ((i : ℤ) = track ∧ (vs.getD i idleVoice).pitch = pitch ∧
      (vs.getD i idleVoice).state ≠ VoiceState.Idle))).length

/-- The number of non-Idle voices on a given track. -/
def trackNonIdleCount (vs : List Voice) (track : ℤ) : ℕ :=
  ((List.range vs.length).filter (fun (i : ℕ) =>
    decide ((i : ℤ) = track ∧ (vs.getD i idleVoice).state ≠ VoiceState.Idle))).length

/-- The number of voices in a track's pool. -/
def trackPoolSize (vs : List Voice) (track : ℤ) : ℕ :=
  ((List.range vs.length).filter (fun (i : ℕ) => decide ((i : ℤ) = track))).length

/-- The engine used to refute the literal tie-break claim: one live NoteOn
waiting in the queue and one scheduled event whose NoteOff and NoteOn both
land at offset 0 (sample rate 1, tempo 60, duration 3/10 of a beat rounds
to zero samples). -/
def cexC6State : EngineState :=
  { engine_init 1 with is_playing := true,
                       events := [⟨0, 61, 100, 3/10, 0, 0, 0⟩],
                       queue := [.NoteOn 60 100 0 0 0] }

/-- The voice slot an action touches: NoteOn and NoteOff act on their
track's single voice, other actions touch no voice. -/
def actTarget : Action → Option ℕ
  | .NoteOn _ _ track _ _ => if validTrack track then some track.toNat else none
  | .NoteOff _ track => if validTrack track then some track.toNat else none
  | _ => none

/-- The effect of an action on its target voice: a NoteOn restarts the
voice fresh (retrigger, allocate and steal coincide for a one-voice pool),
a NoteOff conditionally releases it. -/
def actOnVoice (sounds : List ℤ) (a : Action) (v : Voice) : Voice :=
  match a with
  | .NoteOn pitch velocity track param1 param2 =>
    freshVoice pitch velocity (sounds.getD track.toNat 0) param1 param2
  | .NoteOff pitch _ => releaseVoice v pitch
  | _ => v

/-- A concrete scheduling context: one event at beat 0 on a playing engine,
sample rate 1, tempo 60, six frames. -/
def c3Ctx : Ctx := ⟨[⟨0, 69, 100, 1, 0, 0, 0⟩], [], true, 1, 60, 0, 6⟩

/-- A concrete engine state used to exercise the block-partition theorems:
one stored event at beat 0, playing, sample rate 1. -/
def c2State : EngineState := ⟨1, true, [⟨0, 69, 100, 1, 0, 0, 0⟩], [], [], [], [], []⟩


/-- A concrete engine state used to exercise the note-off delivery theorem:
one stored event at beat 0 with duration 1, playing, sample rate 1. -/
def c4State : EngineState := ⟨1, true, [⟨0, 69, 100, 1, 0, 0, 0⟩], [], [], [], [], []⟩


/-! ## Basic facts about the silent engine -/

theorem batchAt_not_playing (C : Ctx) (h : C.playing = false) (o : ℤ) : batchAt C o = [] := by
  simp [batchAt, pendOffsAt, schedOffsAt, schedOnsAt, h]

theorem voiceAdvance1_idle : voiceAdvance1 idleVoice = idleVoice := rfl

theorem bankOut_idle (m : ℕ) : bankOut (List.replicate m idleVoice) = 0 := by
  simp [bankOut, List.map_replicate, voiceOut, idleVoice]

theorem bankAdvance_idle (m : ℕ) :
    bankAdvance (List.replicate m idleVoice) = List.replicate m idleVoice := by
  simp [bankAdvance, List.map_replicate, voiceAdvance1_idle]

theorem runLoop_not_playing_idle (C : Ctx) (h : C.playing = false) (sounds : List ℤ) (m : ℕ) :
    ∀ (k : ℕ) (o : ℤ),
      runLoop C sounds (List.replicate m idleVoice) o k =
        (List.replicate m idleVoice, List.replicate k 0) := by
  intro k
  induction k with
  | zero =>
    intro o
    simp [runLoop, batchAt_not_playing C h, applyBatch]
  | succ k ih =>
    intro o
    simp only [runLoop, batchAt_not_playing C h, applyBatch, List.foldl_nil,
      bankOut_idle, bankAdvance_idle, ih (o + 1), List.replicate_succ]

theorem set_queue_nil (s : EngineState) (h : s.queue = []) :
    { s with queue := ([] : List Command) } = s := by
  cases s
  dsimp only at h
  subst h
  rfl

theorem drainQueue_empty (s : EngineState) (h : s.queue = []) :
    drainQueue s = (s, []) := by
  simp [drainQueue, h, set_queue_nil s h]

theorem renderBlock_init (sr : ℚ) (t : ℤ) (tempo : ℚ) (n : ℕ) :
    renderBlock (engine_init sr) t tempo n = (engine_init sr, List.replicate n 0) := by
  have hq : (engine_init sr).queue = [] := rfl
  have hplay : (ctxOf (engine_init sr) t tempo n).playing = false := rfl
  have hv : (engine_init sr).voices = List.replicate NUM_TRACKS idleVoice := rfl
  simp only [renderBlock, drainQueue_empty _ hq, List.foldl_nil, hv,
    runLoop_not_playing_idle _ hplay]
  simp [newPending, engine_init]

/-- C9: after engine_init, a render call (no scheduled events, no pending
commands) writes exact silence to both channels, for any prior buffer
contents: the engine overwrites the caller's buffers, the model render
ignores the supplied buffer contents and returns all-zero output. -/
theorem render_after_init_silent (sr : ℚ) (bl br : List ℚ) (sample_time : ℤ)
    (tempo_finite : Bool) (tempo : ℚ) (num_frames : ℤ) :
    (render (some (engine_init sr)) (some bl) (some br) sample_time tempo_finite tempo
        num_frames).2 =
      (List.replicate (min num_frames MAX_BUFFER_SIZE).toNat 0,
       List.replicate (min num_frames MAX_BUFFER_SIZE).toNat 0) := by
  by_cases h : tempo_finite = true ∧ 0 ≤ num_frames ∧ num_frames ≤ MAX_BUFFER_SIZE
  · simp [render, h, renderBlock_init]
  · simp only [render]
    rw [if_neg h]

/-- C1: render is deterministic.  Two runs of the model render with
identical inputs (engine state, which carries the event store and the
pending command sequence, plus sample_time, tempo and num_frames) produce
identical output buffers, bit for bit, and identical successor states. -/
theorem render_deterministic (s : EngineState) (t : ℤ) (tempo : ℚ) (n : ℕ)
    (r1 r2 : EngineState × List ℚ)
    (h1 : renderBlock s t tempo n = r1) (h2 : renderBlock s t tempo n = r2) :
    r1.2 = r2.2 ∧ r1.1 = r2.1 := by
  subst h1; subst h2; exact ⟨rfl, rfl⟩

theorem render_deterministic_witness :
    (renderBlock (engine_init 48000) 0 120 4 = renderBlock (engine_init 48000) 0 120 4) ∧
      ((renderBlock (engine_init 48000) 0 120 4).2 = (renderBlock (engine_init 48000) 0 120 4).2 ∧
       (renderBlock (engine_init 48000) 0 120 4).1 = (renderBlock (engine_init 48000) 0 120 4).1) :=
  ⟨rfl, render_deterministic (engine_init 48000) 0 120 4 _ _ rfl rfl⟩

/-- C7: render returns no error code (its result type is just the engine
and the two buffers) and degrades gracefully on invalid input: for a null
engine, null buffer, non-finite tempo, or num_frames out of range the
input is ignored or clamped (frame count clamped to MAX_BUFFER_SIZE, state
passed through unchanged) and the output buffers are zeroed. -/
theorem render_invalid_graceful (engine : Option EngineState) (bufL bufR : Option (List ℚ))
    (sample_time : ℤ) (tempo_finite : Bool) (tempo : ℚ) (num_frames : ℤ)
    (h : engine = none ∨ bufL = none ∨ bufR = none ∨ tempo_finite = false ∨
      MAX_BUFFER_SIZE < num_frames ∨ num_frames < 0) :
    (render engine bufL bufR sample_time tempo_finite tempo num_frames).2 =
      (List.replicate (min num_frames MAX_BUFFER_SIZE).toNat 0,
       List.replicate (min num_frames MAX_BUFFER_SIZE).toNat 0) ∧
    (render engine bufL bufR sample_time tempo_finite tempo num_frames).1 = engine ∧
    ((min num_frames MAX_BUFFER_SIZE).toNat : ℤ) ≤ MAX_BUFFER_SIZE := by
  have hclamp : ((min num_frames MAX_BUFFER_SIZE).toNat : ℤ) ≤ MAX_BUFFER_SIZE := by
    rcases le_or_lt (min num_frames MAX_BUFFER_SIZE) 0 with h0 | h0
    · rw [Int.toNat_of_nonpos h0]; decide
    · rw [Int.toNat_of_nonneg h0.le]; exact min_le_right _ _
  match engine, bufL, bufR with
  | none, _, _ => exact ⟨rfl, rfl, hclamp⟩
  | some s, none, _ => exact ⟨rfl, rfl, hclamp⟩
  | some s, some _, none => exact ⟨rfl, rfl, hclamp⟩
  | some s, some _, some _ =>
    have hcond : ¬(tempo_finite = true ∧ 0 ≤ num_frames ∧ num_frames ≤ MAX_BUFFER_SIZE) := by
      rcases h with h | h | h | h | h | h
      · exact absurd h (by simp)
      · exact absurd h (by simp)
      · exact absurd h (by simp)
      · rintro ⟨h1, -, -⟩; rw [h] at h1; exact Bool.false_ne_true h1
      · rintro ⟨-, -, h2⟩; exact absurd h2 (not_le.mpr h)
      · rintro ⟨-, h1, -⟩; exact absurd h1 (not_le.mpr h)
    refine ⟨?_, ?_, hclamp⟩
    · simp only [render]; rw [if_neg hcond]
    · simp only [render]; rw [if_neg hcond]

theorem render_invalid_graceful_witness :
    ((none : Option EngineState) = none ∨ (some [(0 : ℚ)]) = none ∨ (some [(0 : ℚ)]) = none ∨
      true = false ∨ MAX_BUFFER_SIZE < (4 : ℤ) ∨ (4 : ℤ) < 0) ∧
    ((render none (some [(0 : ℚ)]) (some [(0 : ℚ)]) 0 true 120 4).2 =
      (List.replicate (min 4 MAX_BUFFER_SIZE).toNat 0,
       List.replicate (min 4 MAX_BUFFER_SIZE).toNat 0) ∧
     (render none (some [(0 : ℚ)]) (some [(0 : ℚ)]) 0 true 120 4).1 = none ∧
     ((min (4 : ℤ) MAX_BUFFER_SIZE).toNat : ℤ) ≤ MAX_BUFFER_SIZE) :=
  ⟨Or.inl rfl, render_invalid_graceful none (some [0]) (some [0]) 0 true 120 4 (Or.inl rfl)⟩

/-! ## The command queue never drops NoteOffs (spec section 4.3) -/


theorem countNoteOffs_dropOldest (q : List Command) :
    countNoteOffs (dropOldestNonCritical q) = countNoteOffs q := by
  induction q with
  | nil => rfl
  | cons c rest ih =>
    by_cases h : isCritical c = true
    · simp [countNoteOffs, dropOldestNonCritical, h, List.countP_cons] at ih ⊢
      omega
    · simp only [Bool.not_eq_true] at h
      simp [countNoteOffs, dropOldestNonCritical, h, List.countP_cons]

theorem countNoteOffs_enqueue (q : List Command) (c : Command) :
    countNoteOffs (enqueue q c) = countNoteOffs q + (if isCritical c then 1 else 0) := by
  unfold enqueue
  split
  · simp [countNoteOffs, List.countP_append, List.countP_cons]
  · split
    · simp [countNoteOffs, List.countP_append, List.countP_cons]
      rw [show List.countP isCritical (dropOldestNonCritical q) =
            countNoteOffs (dropOldestNonCritical q) from rfl, countNoteOffs_dropOldest]
      rfl
    · split
      · rename_i hc
        simp [countNoteOffs, List.countP_append, List.countP_cons, hc]
      · rename_i hnc
        simp only [Bool.not_eq_true] at hnc
        simp [hnc]

/-- C8: NoteOff commands are never dropped by the command queue.  Over any
sequence of host-thread enqueues, starting from any queue contents, the
number of NoteOff commands in the queue equals the initial count plus the
number of NoteOffs enqueued; when the queue is full only non-critical
commands (the oldest such) are discarded. -/
theorem note_off_never_dropped (q : List Command) (cmds : List Command) :
    countNoteOffs (cmds.foldl enqueue q) = countNoteOffs q + countNoteOffs cmds := by
  induction cmds generalizing q with
  | nil => simp [countNoteOffs]
  | cons c rest ih =>
    simp only [List.foldl_cons]
    rw [ih, countNoteOffs_enqueue]
    simp only [countNoteOffs, List.countP_cons]
    omega

/-! ## Voice exclusivity (spec sections 3 and 4.5) -/

theorem nodup_const_length_le_one {l : List ℕ} (m : ℕ) (hn : l.Nodup) (h : ∀ x ∈ l, x = m) :
    l.length ≤ 1 := by
  match l with
  | [] => simp
  | [a] => simp
  | a :: b :: rest =>
    exfalso
    have ha : a = m := h a (by simp)
    have hb : b = m := h b (by simp)
    rw [List.nodup_cons] at hn
    exact hn.1 (by simp [ha, hb])


theorem nonIdleCount_le_one (vs : List Voice) (track pitch : ℤ) :
    nonIdleCount vs track pitch ≤ 1 := by
  unfold nonIdleCount
  refine nodup_const_length_le_one track.toNat ((List.nodup_range _).filter _) ?_
  intro x hx
  rw [List.mem_filter] at hx
  have h2 := of_decide_eq_true hx.2
  omega

theorem trackNonIdleCount_le_one (vs : List Voice) (track : ℤ) :
    trackNonIdleCount vs track ≤ 1 := by
  unfold trackNonIdleCount
  refine nodup_const_length_le_one track.toNat ((List.nodup_range _).filter _) ?_
  intro x hx
  rw [List.mem_filter] at hx
  have h2 := of_decide_eq_true hx.2
  omega

theorem trackPoolSize_eq_voice_count (vs : List Voice) (track : ℤ)
    (hlen : vs.length = NUM_TRACKS) (htr : validTrack track = true) :
    trackPoolSize vs track = VOICE_COUNT := by
  have h := of_decide_eq_true htr
  have hle : trackPoolSize vs track ≤ 1 := by
    unfold trackPoolSize
    refine nodup_const_length_le_one track.toNat ((List.nodup_range _).filter _) ?_
    intro x hx
    rw [List.mem_filter] at hx
    have h2 := of_decide_eq_true hx.2
    omega
  have hmem : track.toNat ∈ (List.range vs.length).filter
      (fun (i : ℕ) => decide ((i : ℤ) = track)) := by
    rw [List.mem_filter, List.mem_range]
    constructor
    · omega
    · rw [decide_eq_true_eq]
      omega
  have hpos : 0 < trackPoolSize vs track := by
    unfold trackPoolSize
    exact List.length_pos_of_mem hmem
  have : trackPoolSize vs track = 1 := le_antisymm hle hpos
  rw [this]; rfl

/-- C5: at most one voice per (track, pitch) is non-Idle at any instant
(this holds of every voice bank state, hence is preserved by every engine
operation), and a NoteOn hitting a (track, pitch) whose voice is already
non-Idle retriggers that same single voice, re-entering Attacking: the
bank keeps its size, every other slot is untouched, and the per-pair
non-Idle count stays at most one, so no second voice is allocated or
stolen. -/
theorem voice_exclusive_retrigger (vs : List Voice) (sounds : List ℤ)
    (pitch velocity track : ℤ) (p1 p2 : ℚ)
    (hlen : vs.length = NUM_TRACKS)
    (htr : validTrack track = true)
    (hni : (vs.getD track.toNat idleVoice).state ≠ VoiceState.Idle)
    (hp : (vs.getD track.toNat idleVoice).pitch = pitch) :
    (∀ (ws : List Voice) (tr q : ℤ), nonIdleCount ws tr q ≤ 1) ∧
    (voicesNoteOn vs sounds pitch velocity track p1 p2).length = vs.length ∧
    (∀ i : ℕ, i ≠ track.toNat →
      (voicesNoteOn vs sounds pitch velocity track p1 p2)[i]? = vs[i]?) ∧
    ((voicesNoteOn vs sounds pitch velocity track p1 p2).getD track.toNat idleVoice).state =
      VoiceState.Attacking ∧
    ((voicesNoteOn vs sounds pitch velocity track p1 p2).getD track.toNat idleVoice).pitch =
      pitch := by
  have h := of_decide_eq_true htr
  have hlt : track.toNat < vs.length := by omega
  refine ⟨fun ws tr q => nonIdleCount_le_one ws tr q, ?_, ?_, ?_, ?_⟩
  · simp [voicesNoteOn, htr, List.length_set]
  · intro i hi
    simp only [voicesNoteOn, htr, if_true]
    exact List.getElem?_set_ne (fun hh => hi hh.symm)
  · simp [voicesNoteOn, htr, List.getD_eq_getElem?_getD, List.getElem?_set_self hlt, freshVoice]
  · simp [voicesNoteOn, htr, List.getD_eq_getElem?_getD, List.getElem?_set_self hlt, freshVoice]

theorem voice_exclusive_retrigger_witness :
    ((List.replicate NUM_TRACKS { idleVoice with state := VoiceState.Sustaining, pitch := 60 } :
        List Voice).length = NUM_TRACKS ∧
     validTrack 0 = true ∧
     ((List.replicate NUM_TRACKS { idleVoice with state := VoiceState.Sustaining, pitch := 60 } :
        List Voice).getD (0 : ℤ).toNat idleVoice).state ≠ VoiceState.Idle ∧
     ((List.replicate NUM_TRACKS { idleVoice with state := VoiceState.Sustaining, pitch := 60 } :
        List Voice).getD (0 : ℤ).toNat idleVoice).pitch = 60) ∧
    ((voicesNoteOn
        (List.replicate NUM_TRACKS { idleVoice with state := VoiceState.Sustaining, pitch := 60 })
        (List.replicate NUM_TRACKS 0) 60 100 0 0 0).getD (0 : ℤ).toNat idleVoice).state =
      VoiceState.Attacking :=
  ⟨⟨by decide, by decide, by decide, by decide⟩,
    (voice_exclusive_retrigger
      (List.replicate NUM_TRACKS { idleVoice with state := VoiceState.Sustaining, pitch := 60 })
      (List.replicate NUM_TRACKS 0) 60 100 0 0 0
      (by decide) (by decide) (by decide) (by decide)).2.2.2.1⟩

/-- C10: VOICE_COUNT is 1 in src/cp3_dsp.h, each track's pool holds exactly
one voice, at most one voice per track is non-Idle at any instant, and a
note_on for any pitch on a valid track (in particular one differing from
the pitch currently sounding there) restarts that single voice in place:
the bank keeps its length, so no polyphony is added. -/
theorem single_voice_per_track (vs : List Voice) (sounds : List ℤ)
    (pitch velocity track : ℤ) (p1 p2 : ℚ)
    (hlen : vs.length = NUM_TRACKS) (htr : validTrack track = true) :
    VOICE_COUNT = 1 ∧
    trackPoolSize vs track = VOICE_COUNT ∧
    (∀ (ws : List Voice) (tr : ℤ), trackNonIdleCount ws tr ≤ VOICE_COUNT) ∧
    voicesNoteOn vs sounds pitch velocity track p1 p2 =
      vs.set track.toNat (freshVoice pitch velocity (sounds.getD track.toNat 0) p1 p2) ∧
    (voicesNoteOn vs sounds pitch velocity track p1 p2).length = vs.length := by
  refine ⟨rfl, trackPoolSize_eq_voice_count vs track hlen htr, ?_, ?_, ?_⟩
  · intro ws tr
    exact le_trans (trackNonIdleCount_le_one ws tr) (by norm_num [VOICE_COUNT])
  · simp [voicesNoteOn, htr]
  · simp [voicesNoteOn, htr, List.length_set]

theorem single_voice_per_track_witness :
    ((List.replicate NUM_TRACKS idleVoice : List Voice).length = NUM_TRACKS ∧
      validTrack 3 = true) ∧
    voicesNoteOn (List.replicate NUM_TRACKS idleVoice) (List.replicate NUM_TRACKS 0)
        64 90 3 0 0 =
      (List.replicate NUM_TRACKS idleVoice).set (3 : ℤ).toNat
        (freshVoice 64 90 ((List.replicate NUM_TRACKS (0 : ℤ)).getD (3 : ℤ).toNat 0) 0 0) :=
  ⟨⟨by decide, by decide⟩,
    (single_voice_per_track (List.replicate NUM_TRACKS idleVoice)
      (List.replicate NUM_TRACKS 0) 64 90 3 0 0 (by decide) (by decide)).2.2.2.1⟩

/-! ## Ordering of actions within a block (spec section 4.4 step 3) -/

theorem pairwise_flatMap_range {α : Type} (R : α → α → Prop) (f : ℕ → List α) (m : ℕ)
    (hin : ∀ o, (f o).Pairwise R)
    (hcross : ∀ o1 o2, o1 < o2 → ∀ a ∈ f o1, ∀ b ∈ f o2, R a b) :
    ((List.range m).flatMap f).Pairwise R := by
  induction m with
  | zero => simp
  | succ m ih =>
    rw [List.range_succ, List.flatMap_append, List.pairwise_append]
    refine ⟨ih, by simpa using hin m, ?_⟩
    intro a ha b hb
    rw [List.mem_flatMap] at ha
    obtain ⟨o, ho, hao⟩ := ha
    rw [List.mem_range] at ho
    simp only [List.flatMap_cons, List.flatMap_nil, List.append_nil] at hb
    exact hcross o m ho a hao b hb

theorem mem_pendOffsAt_rank (C : Ctx) (o : ℤ) (a : Action) (h : a ∈ pendOffsAt C o) :
    actionRank a = 2 := by
  unfold pendOffsAt at h
  split at h
  · rw [List.mem_map] at h
    obtain ⟨p, -, rfl⟩ := h
    rfl
  · simp at h

theorem mem_schedOffsAt_rank (C : Ctx) (o : ℤ) (a : Action) (h : a ∈ schedOffsAt C o) :
    actionRank a = 2 := by
  unfold schedOffsAt at h
  split at h
  · rw [List.mem_map] at h
    obtain ⟨e, -, rfl⟩ := h
    rfl
  · simp at h

theorem mem_schedOnsAt_rank (C : Ctx) (o : ℤ) (a : Action) (h : a ∈ schedOnsAt C o) :
    actionRank a = 3 := by
  unfold schedOnsAt at h
  split at h
  · rw [List.mem_map] at h
    obtain ⟨e, -, rfl⟩ := h
    rfl
  · simp at h

theorem batchAt_rank_sorted (C : Ctx) (o : ℤ) :
    (batchAt C o).Pairwise (fun a b => actionRank a ≤ actionRank b) := by
  have hoffs : ∀ a ∈ pendOffsAt C o ++ schedOffsAt C o, actionRank a = 2 := by
    intro a ha
    rw [List.mem_append] at ha
    rcases ha with ha | ha
    · exact mem_pendOffsAt_rank C o a ha
    · exact mem_schedOffsAt_rank C o a ha
  unfold batchAt
  rw [List.pairwise_append]
  refine ⟨?_, ?_, ?_⟩
  · apply List.pairwise_of_forall_mem_list
    intro a ha b hb
    rw [hoffs a ha, hoffs b hb]
  · apply List.pairwise_of_forall_mem_list
    intro a ha b hb
    rw [mem_schedOnsAt_rank C o a ha, mem_schedOnsAt_rank C o b hb]
  · intro a ha b hb
    rw [hoffs a ha, mem_schedOnsAt_rank C o b hb]
    omega


theorem blockLog_cexC6 : blockLog cexC6State 0 60 4 =
    [(0, true, .NoteOn 60 100 0 0 0), (0, false, .NoteOff 61 0),
     (0, false, .NoteOn 61 100 0 0 0)] := by
  norm_num [blockLog, drainQueue, cexC6State, engine_init, cmdAction, isLiveCmd, applyStoreCmd,
    batchAt, pendOffsAt, schedOffsAt, schedOnsAt, ctxOf, windowedb, onOffset, offOffset,
    beatAt, beatsPerSample, round_eq, mkOn, mkOff,
    show List.range 5 = [0, 1, 2, 3, 4] from rfl, List.flatMap_cons, List.filter_cons,
    List.filterMap_cons, List.filterMap_nil]

/-- C6 counterexample: in the block rendered from cexC6State the live
NoteOn is applied at offset 0 before the scheduled NoteOff at offset 0
(live commands precede scheduled events), so the application order is NOT
rank-sorted at equal offsets: the claimed fixed order SetParameter, then
SetSound, then NoteOff, then NoteOn fails while live-first holds, and the
two clauses of the claim cannot hold together. -/
theorem scheduler_tie_break_counterexample :
    ¬ ((blockLog cexC6State 0 60 4).Pairwise (fun a b =>
          a.1 < b.1 ∨ (a.1 = b.1 ∧ actionRank a.2.2 ≤ actionRank b.2.2)) ∧
       (blockLog cexC6State 0 60 4).Pairwise (fun a b =>
          a.1 = b.1 → b.2.1 = true → a.2.1 = true)) := by
  rw [blockLog_cexC6]
  decide

/-- C6 amended: within a render block the application order is sorted by
sample offset; at equal offsets live commands (applied in enqueue order)
precede scheduled actions; and among the scheduled actions at one offset
the spec tie-break rank holds, NoteOff before NoteOn (SetParameter and
SetSound never occur in the scheduled list).  The literal claim fails only
in demanding the rank order across the live/scheduled boundary, which
contradicts the stable live-first merge. -/
theorem scheduler_order_amended (s : EngineState) (t : ℤ) (tempo : ℚ) (n : ℕ) :
    (blockLog s t tempo n).Pairwise (fun a b =>
      a.1 ≤ b.1 ∧ (a.1 = b.1 →
        ((b.2.1 = true → a.2.1 = true) ∧
         (a.2.1 = false → b.2.1 = false → actionRank a.2.2 ≤ actionRank b.2.2)))) := by
  unfold blockLog
  rw [List.pairwise_append]
  refine ⟨?_, ?_, ?_⟩
  · apply List.pairwise_of_forall_mem_list
    intro a ha b hb
    rw [List.mem_map] at ha hb
    obtain ⟨x, -, rfl⟩ := ha
    obtain ⟨y, -, rfl⟩ := hb
    exact ⟨le_refl 0, fun _ => ⟨fun _ => rfl, fun hf => by simp at hf⟩⟩
  · apply pairwise_flatMap_range
    · intro o
      rw [List.pairwise_map]
      refine (batchAt_rank_sorted (ctxOf (drainQueue s).1 t tempo n) (o : ℤ)).imp ?_
      intro a b hr
      exact ⟨le_refl _, fun _ => ⟨fun hb => by simp at hb, fun _ _ => hr⟩⟩
    · intro o1 o2 ho a ha b hb
      rw [List.mem_map] at ha hb
      obtain ⟨x, -, rfl⟩ := ha
      obtain ⟨y, -, rfl⟩ := hb
      refine ⟨show ((o1 : ℤ) ≤ (o2 : ℤ)) from by exact_mod_cast ho.le, fun heq => ?_⟩
      exfalso
      have heq2 : (o1 : ℤ) = (o2 : ℤ) := heq
      have : o1 = o2 := by exact_mod_cast heq2
      omega
  · intro a ha b hb
    rw [List.mem_map] at ha
    obtain ⟨x, -, rfl⟩ := ha
    rw [List.mem_flatMap] at hb
    obtain ⟨o, -, hbo⟩ := hb
    rw [List.mem_map] at hbo
    obtain ⟨y, -, rfl⟩ := hbo
    exact ⟨Int.natCast_nonneg o, fun _ => ⟨fun hb2 => by simp at hb2, fun ha2 => by simp at ha2⟩⟩

/-! ## Transport arithmetic: bounds on rounded sample offsets -/

theorem beatsPerSample_pos {sr tempo : ℚ} (hsr : 0 < sr) (ht : 0 < tempo) :
    0 < beatsPerSample sr tempo := div_pos ht (by positivity)

theorem round_le_of_lt {x : ℚ} {m : ℤ} (h : x < (m : ℚ)) : round x ≤ m := by
  rw [round_eq]
  have h2 : ⌊x + 1 / 2⌋ < m + 1 := by
    rw [Int.floor_lt]
    push_cast
    linarith
  omega

theorem le_round_of_le {x : ℚ} {m : ℤ} (h : (m : ℚ) ≤ x) : m ≤ round x := by
  rw [round_eq, Int.le_floor]
  push_cast
  linarith

theorem round_mono_rat {x y : ℚ} (h : x ≤ y) : round x ≤ round y := by
  rw [round_eq, round_eq]
  exact Int.floor_le_floor (by linarith)

theorem onOffset_eq (sr tempo : ℚ) (t : ℤ) (e : Event) (hbps : beatsPerSample sr tempo ≠ 0) :
    onOffset sr tempo t e = round (e.beat_time / beatsPerSample sr tempo) - t := by
  unfold onOffset beatAt
  rw [sub_div, mul_div_cancel_right₀ _ hbps, round_sub_int]

theorem offOffset_eq (sr tempo : ℚ) (t : ℤ) (e : Event) (hbps : beatsPerSample sr tempo ≠ 0) :
    offOffset sr tempo t e =
      round ((e.beat_time + e.duration) / beatsPerSample sr tempo) - t := by
  unfold offOffset beatAt
  rw [sub_div, mul_div_cancel_right₀ _ hbps, round_sub_int]

theorem onOffset_shift (sr tempo : ℚ) (t m : ℤ) (e : Event)
    (hbps : beatsPerSample sr tempo ≠ 0) :
    onOffset sr tempo (t + m) e = onOffset sr tempo t e - m := by
  rw [onOffset_eq sr tempo (t + m) e hbps, onOffset_eq sr tempo t e hbps]
  ring

theorem offOffset_shift (sr tempo : ℚ) (t m : ℤ) (e : Event)
    (hbps : beatsPerSample sr tempo ≠ 0) :
    offOffset sr tempo (t + m) e = offOffset sr tempo t e - m := by
  rw [offOffset_eq sr tempo (t + m) e hbps, offOffset_eq sr tempo t e hbps]
  ring

theorem onOffset_nonneg {sr tempo : ℚ} (hbps : 0 < beatsPerSample sr tempo) {t : ℤ} {e : Event}
    (h : beatAt sr tempo t ≤ e.beat_time) : 0 ≤ onOffset sr tempo t e := by
  rw [onOffset_eq sr tempo t e hbps.ne']
  have : t ≤ round (e.beat_time / beatsPerSample sr tempo) := by
    apply le_round_of_le
    rw [le_div_iff₀ hbps]
    exact h
  omega

theorem onOffset_le {sr tempo : ℚ} (hbps : 0 < beatsPerSample sr tempo) {t : ℤ} {m : ℤ}
    {e : Event} (h : e.beat_time < beatAt sr tempo m) : onOffset sr tempo t e ≤ m - t := by
  rw [onOffset_eq sr tempo t e hbps.ne']
  have : round (e.beat_time / beatsPerSample sr tempo) ≤ m := by
    apply round_le_of_lt
    rw [div_lt_iff₀ hbps]
    exact h
  omega

theorem le_onOffset {sr tempo : ℚ} (hbps : 0 < beatsPerSample sr tempo) {t : ℤ} {m : ℤ}
    {e : Event} (h : beatAt sr tempo m ≤ e.beat_time) : m - t ≤ onOffset sr tempo t e := by
  rw [onOffset_eq sr tempo t e hbps.ne']
  have : m ≤ round (e.beat_time / beatsPerSample sr tempo) := by
    apply le_round_of_le
    rw [le_div_iff₀ hbps]
    exact h
  omega

theorem onOffset_le_offOffset {sr tempo : ℚ} (hbps : 0 < beatsPerSample sr tempo) (t : ℤ)
    {e : Event} (hd : 0 ≤ e.duration) : onOffset sr tempo t e ≤ offOffset sr tempo t e := by
  unfold onOffset offOffset
  apply round_mono_rat
  apply div_le_div_of_nonneg_right _ hbps.le
  linarith

theorem le_offOffset {sr tempo : ℚ} (hbps : 0 < beatsPerSample sr tempo) {t : ℤ} {m : ℤ}
    {e : Event} (h : beatAt sr tempo m ≤ e.beat_time) (hd : 0 ≤ e.duration) :
    m - t ≤ offOffset sr tempo t e :=
  le_trans (le_onOffset hbps h) (onOffset_le_offOffset hbps t hd)

/-! ## Counting machinery: summing per-offset buckets -/

theorem sum_map_add_nat {l : List ℕ} {f g : ℕ → ℕ} :
    (l.map (fun o => f o + g o)).sum = (l.map f).sum + (l.map g).sum := by
  induction l with
  | nil => simp
  | cons a rest ih =>
    simp only [List.map_cons, List.sum_cons, ih]
    omega

theorem sum_map_range_ite (m : ℕ) (k : ℤ) (c : ℕ) :
    ((List.range m).map (fun (o : ℕ) => if k = (o : ℤ) then c else 0)).sum =
      if 0 ≤ k ∧ k < m then c else 0 := by
  induction m with
  | zero =>
    simp only [List.range_zero, List.map_nil, List.sum_nil]
    have : ¬(0 ≤ k ∧ k < (0 : ℕ)) := by
      push_neg
      intro h
      exact_mod_cast h
    rw [if_neg this]
  | succ m ih =>
    rw [List.range_succ, List.map_append, List.sum_append, ih]
    simp only [List.map_cons, List.map_nil, List.sum_cons, List.sum_nil]
    split_ifs <;> omega

theorem countP_bucket_sum (l : List Event) (g : Event → ℤ) (P Q : Event → Bool) (m : ℕ)
    (hg : ∀ e ∈ l, P e = true → 0 ≤ g e ∧ g e < m) :
    ((List.range m).map
      (fun (o : ℕ) => l.countP (fun e => (P e && decide (g e = (o : ℤ))) && Q e))).sum =
      l.countP (fun e => P e && Q e) := by
  induction l with
  | nil => simp
  | cons e rest ih =>
    have hrest : ∀ e' ∈ rest, P e' = true → 0 ≤ g e' ∧ g e' < m := fun e' he' =>
      hg e' (List.mem_cons_of_mem e he')
    have hstep : (List.range m).map (fun (o : ℕ) =>
        List.countP (fun e' => (P e' && decide (g e' = (o : ℤ))) && Q e') (e :: rest)) =
        (List.range m).map (fun (o : ℕ) =>
          List.countP (fun e' => (P e' && decide (g e' = (o : ℤ))) && Q e') rest +
            if ((P e && decide (g e = (o : ℤ))) && Q e) = true then 1 else 0) :=
      List.map_congr_left (fun o _ => List.countP_cons _ e rest)
    rw [hstep, sum_map_add_nat, ih hrest, List.countP_cons]
    congr 1
    by_cases hP : P e = true
    · by_cases hQ : Q e = true
      · have hge := hg e (List.mem_cons_self e rest) hP
        have : ∀ o : ℕ, (if ((P e && decide (g e = (o : ℤ))) && Q e) = true then 1 else 0) =
            (if g e = (o : ℤ) then 1 else 0) := by
          intro o
          by_cases hgo : g e = (o : ℤ) <;> simp [hP, hQ, hgo]
        rw [List.map_congr_left (fun o _ => this o), sum_map_range_ite]
        simp [hP, hQ, hge.1, hge.2]
      · have hQ2 : Q e = false := by
          cases hQe : Q e
          · rfl
          · exact absurd hQe hQ
        simp [hQ2]
    · have hP2 : P e = false := by
        cases hPe : P e
        · rfl
        · exact absurd hPe hP
      simp [hP2]

/-- C3: event completeness.  While playing, the NoteOn actions a block
applies are, as a multiset, exactly one NoteOn per stored event whose
beat_time lies in the half-open window [beat_start, beat_end): an event
with beat_time strictly below the window start is dropped, and one exactly
at the start is played, since the window test is
beat_start ≤ beat_time < beat_end. -/
theorem event_completeness (C : Ctx) (hsr : 0 < C.sr) (ht : 0 < C.tempo)
    (hplay : C.playing = true) :
    (ctxOns C).Perm ((C.events.filter (windowedb C)).map mkOn) ∧
    (∀ e : Event, windowedb C e = true ↔
      (beatAt C.sr C.tempo C.t ≤ e.beat_time ∧
       e.beat_time < beatAt C.sr C.tempo (C.t + (C.n : ℤ)))) := by
  have hbps : 0 < beatsPerSample C.sr C.tempo := beatsPerSample_pos hsr ht
  constructor
  · rw [List.perm_iff_count]
    intro a
    unfold ctxOns
    rw [List.count_flatMap]
    have hcnt : (List.range (C.n + 1)).map
        (List.count a ∘ fun (o : ℕ) => schedOnsAt C (o : ℤ)) =
        (List.range (C.n + 1)).map (fun (o : ℕ) =>
          C.events.countP (fun e =>
            (windowedb C e && decide (onOffset C.sr C.tempo C.t e = (o : ℤ))) &&
              (mkOn e == a))) := by
      apply List.map_congr_left
      intro o _
      simp only [Function.comp_apply, schedOnsAt, hplay, if_true, List.count_eq_countP,
        List.countP_map, List.countP_filter]
      apply List.countP_congr
      intro e _
      simp only [Function.comp_apply, Bool.and_eq_true, decide_eq_true_eq, beq_iff_eq]
      tauto
    rw [hcnt, countP_bucket_sum C.events (fun e => onOffset C.sr C.tempo C.t e)
      (windowedb C) (fun e => mkOn e == a) (C.n + 1) ?_]
    · rw [List.count_eq_countP, List.countP_map, List.countP_filter]
      apply List.countP_congr
      intro e _
      simp only [Function.comp_apply, Bool.and_eq_true, beq_iff_eq]
      tauto
    · intro e _ hw
      rw [windowedb, decide_eq_true_eq] at hw
      dsimp only
      refine ⟨onOffset_nonneg hbps hw.1, ?_⟩
      have h2 := onOffset_le hbps (t := C.t) (m := C.t + (C.n : ℤ)) hw.2
      omega
  · intro e
    rw [windowedb, decide_eq_true_eq]

theorem event_completeness_witness :
    (0 < c3Ctx.sr ∧ 0 < c3Ctx.tempo ∧ c3Ctx.playing = true) ∧
    (ctxOns c3Ctx).Perm ((c3Ctx.events.filter (windowedb c3Ctx)).map mkOn) :=
  ⟨⟨by decide, by decide, by decide⟩,
    (event_completeness c3Ctx (by decide) (by decide) (by decide)).1⟩

/-! ## Per-voice decomposition of batch application -/

theorem applyAct_index (sounds : List ℤ) (vs : List Voice) (a : Action) (i : ℕ) :
    (applyAct sounds vs a)[i]? =
      if actTarget a = some i then (vs[i]?).map (actOnVoice sounds a) else vs[i]? := by
  match a with
  | .SetParameter p v tr => simp [applyAct, actTarget]
  | .SetSound snd tr => simp [applyAct, actTarget]
  | .NoteOn p v tr q1 q2 =>
    simp only [applyAct, actTarget, voicesNoteOn, actOnVoice]
    by_cases hv : validTrack tr = true
    · simp only [hv, if_true, Option.some.injEq]
      by_cases hi : tr.toNat = i
      · subst hi
        rw [if_pos rfl, List.getElem?_set, if_pos rfl]
        by_cases hlen : tr.toNat < vs.length
        · rw [if_pos hlen, List.getElem?_eq_getElem hlen]
          simp [actOnVoice]
        · rw [if_neg hlen, List.getElem?_eq_none (show vs.length ≤ tr.toNat by omega)]
          simp
      · rw [if_neg hi, List.getElem?_set, if_neg hi]
    · have hv2 : validTrack tr = false := by
        cases h : validTrack tr
        · rfl
        · exact absurd h hv
      simp [hv2]
  | .NoteOff p tr =>
    simp only [applyAct, actTarget, voicesNoteOff, actOnVoice]
    by_cases hv : validTrack tr = true
    · simp only [hv, if_true, Option.some.injEq]
      by_cases hi : tr.toNat = i
      · subst hi
        rw [if_pos rfl, List.getElem?_set, if_pos rfl]
        by_cases hlen : tr.toNat < vs.length
        · rw [if_pos hlen, List.getElem?_eq_getElem hlen]
          have h2 : vs.getD tr.toNat idleVoice = vs[tr.toNat] := by
            rw [List.getD_eq_getElem?_getD, List.getElem?_eq_getElem hlen]
            rfl
          rw [h2]
          simp [actOnVoice]
        · rw [if_neg hlen, List.getElem?_eq_none (show vs.length ≤ tr.toNat by omega)]
          simp
      · rw [if_neg hi, List.getElem?_set, if_neg hi]
    · have hv2 : validTrack tr = false := by
        cases h : validTrack tr
        · rfl
        · exact absurd h hv
      simp [hv2]

theorem applyBatch_index (sounds : List ℤ) (acts : List Action) (vs : List Voice) (i : ℕ) :
    (applyBatch sounds vs acts)[i]? =
      (vs[i]?).map (fun v =>
        (acts.filter (fun a => actTarget a == some i)).foldl
          (fun w a => actOnVoice sounds a w) v) := by
  induction acts generalizing vs with
  | nil =>
    simp only [applyBatch, List.foldl_nil, List.filter_nil]
    cases vs[i]? <;> rfl
  | cons a rest ih =>
    have hstep : applyBatch sounds vs (a :: rest) =
        applyBatch sounds (applyAct sounds vs a) rest := rfl
    rw [hstep, ih, applyAct_index]
    by_cases ht : actTarget a = some i
    · rw [if_pos ht, List.filter_cons, if_pos (by simp [ht])]
      cases vs[i]? <;> simp
    · rw [if_neg ht, List.filter_cons, if_neg (by simpa using ht)]

theorem foldl_actOnVoice_absorb (sounds : List ℤ) (l : List Action) (p v tr : ℤ) (q1 q2 : ℚ)
    (rest : List Action) (w1 w2 : Voice) :
    (l ++ Action.NoteOn p v tr q1 q2 :: rest).foldl (fun w a => actOnVoice sounds a w) w1 =
      (l ++ Action.NoteOn p v tr q1 q2 :: rest).foldl (fun w a => actOnVoice sounds a w) w2 := by
  rw [List.foldl_append, List.foldl_append]
  simp only [List.foldl_cons]
  rfl

theorem applyBatch_swap (sounds : List ℤ) (offs ons ons2 : List Action)
    (h1 : ∀ a ∈ offs, ∀ i : ℕ, actTarget a = some i → ∃ b ∈ ons2, actTarget b = some i)
    (h2 : ∀ b ∈ ons2, ∃ p v tr q1 q2, b = Action.NoteOn p v tr q1 q2) :
    ∀ ws, applyBatch sounds ws (offs ++ (ons ++ ons2)) =
      applyBatch sounds ws (ons ++ (offs ++ ons2)) := by
  intro ws
  apply List.ext_getElem?
  intro i
  rw [applyBatch_index, applyBatch_index]
  cases hwsi : ws[i]? with
  | none => simp
  | some w =>
    simp only [Option.map_some', Option.some.injEq]
    simp only [List.filter_append]
    set Fo := offs.filter (fun a => actTarget a == some i) with hFo
    set Fn := ons.filter (fun a => actTarget a == some i) with hFn
    set F2 := ons2.filter (fun a => actTarget a == some i) with hF2
    by_cases hFoe : Fo = []
    · rw [hFoe]
      simp
    · obtain ⟨aoff, haoff⟩ := List.exists_mem_of_ne_nil Fo hFoe
      have haoff2 : aoff ∈ offs ∧ (actTarget aoff == some i) = true := by
        rw [hFo] at haoff
        exact List.mem_filter.mp haoff
      have htgt : actTarget aoff = some i := by
        have := haoff2.2
        simpa using this
      obtain ⟨b, hbmem, hbtgt⟩ := h1 aoff haoff2.1 i htgt
      have hbF2 : b ∈ F2 := by
        rw [hF2, List.mem_filter]
        exact ⟨hbmem, by simp [hbtgt]⟩
      obtain ⟨l2a, l2b, hsplit⟩ := List.append_of_mem hbF2
      obtain ⟨p, v, tr, q1, q2, hb⟩ := h2 b hbmem
      rw [hsplit, hb]
      simp only [List.foldl_append]
      exact foldl_actOnVoice_absorb sounds [] p v tr q1 q2 l2b _ _


/-! ## Composing the render loop across block boundaries -/

theorem runLoop_reindex (Ca Cb : Ctx) (sounds : List ℤ) (d : ℤ) :
    ∀ (k : ℕ) (j : ℤ) (vs : List Voice),
      (∀ i : ℤ, j ≤ i → i ≤ j + k → batchAt Ca (d + i) = batchAt Cb i) →
      runLoop Ca sounds vs (d + j) k = runLoop Cb sounds vs j k := by
  intro k
  induction k with
  | zero =>
    intro j vs h
    simp only [runLoop]
    rw [h j le_rfl (by omega)]
  | succ k ih =>
    intro j vs h
    simp only [runLoop]
    rw [h j le_rfl (by omega)]
    have harg : d + j + 1 = d + (j + 1) := by ring
    rw [harg, ih (j + 1) _ (fun i hi1 hi2 => h i (by omega) (by push_cast at hi2 ⊢; omega))]

theorem runLoop_split_gen (Cbig C1 C2 : Ctx) (sounds : List ℤ) (n1 n2 : ℕ)
    (hA1 : ∀ i : ℤ, 0 ≤ i → i < (n1 : ℤ) → batchAt Cbig i = batchAt C1 i)
    (hA2 : ∀ i : ℤ, 1 ≤ i → i ≤ (n2 : ℤ) → batchAt Cbig ((n1 : ℤ) + i) = batchAt C2 i)
    (hA3 : ∀ ws : List Voice, applyBatch sounds ws (batchAt Cbig (n1 : ℤ)) =
      applyBatch sounds (applyBatch sounds ws (batchAt C1 (n1 : ℤ))) (batchAt C2 0)) :
    ∀ (m : ℕ) (a : ℤ), a + m = (n1 : ℤ) → 0 ≤ a → ∀ vs : List Voice,
      runLoop Cbig sounds vs a (m + n2) =
        ((runLoop C2 sounds (runLoop C1 sounds vs a m).1 0 n2).1,
         (runLoop C1 sounds vs a m).2 ++
           (runLoop C2 sounds (runLoop C1 sounds vs a m).1 0 n2).2) := by
  intro m
  induction m with
  | zero =>
    intro a ha ha0 vs
    have haeq : a = (n1 : ℤ) := by omega
    subst haeq
    simp only [Nat.zero_add]
    match n2 with
    | 0 =>
      simp only [runLoop]
      rw [hA3 vs]
      simp
    | Nat.succ k =>
      simp only [runLoop]
      rw [hA3 vs]
      have hz : (0 : ℤ) + 1 = 1 := by ring
      have hshift : runLoop Cbig sounds
          (bankAdvance (applyBatch sounds (applyBatch sounds vs (batchAt C1 (n1 : ℤ)))
            (batchAt C2 0))) ((n1 : ℤ) + 1) k =
          runLoop C2 sounds
            (bankAdvance (applyBatch sounds (applyBatch sounds vs (batchAt C1 (n1 : ℤ)))
              (batchAt C2 0))) 1 k := by
        apply runLoop_reindex
        intro i hi1 hi2
        exact hA2 i hi1 (by push_cast at hi2 ⊢; omega)
      rw [hshift]
      simp
  | succ m ih =>
    intro a ha ha0 vs
    have hfuel : (m + 1) + n2 = (m + n2) + 1 := by omega
    rw [hfuel]
    simp only [runLoop]
    rw [hA1 a ha0 (by omega)]
    rw [ih (a + 1) (by omega) (by omega)]
    simp

theorem runLoop_split (Cbig C1 C2 : Ctx) (sounds : List ℤ) (n1 n2 : ℕ)
    (hA1 : ∀ i : ℤ, 0 ≤ i → i < (n1 : ℤ) → batchAt Cbig i = batchAt C1 i)
    (hA2 : ∀ i : ℤ, 1 ≤ i → i ≤ (n2 : ℤ) → batchAt Cbig ((n1 : ℤ) + i) = batchAt C2 i)
    (hA3 : ∀ ws : List Voice, applyBatch sounds ws (batchAt Cbig (n1 : ℤ)) =
      applyBatch sounds (applyBatch sounds ws (batchAt C1 (n1 : ℤ))) (batchAt C2 0))
    (vs : List Voice) :
    runLoop Cbig sounds vs 0 (n1 + n2) =
      ((runLoop C2 sounds (runLoop C1 sounds vs 0 n1).1 0 n2).1,
       (runLoop C1 sounds vs 0 n1).2 ++
         (runLoop C2 sounds (runLoop C1 sounds vs 0 n1).1 0 n2).2) :=
  runLoop_split_gen Cbig C1 C2 sounds n1 n2 hA1 hA2 hA3 n1 0 (by omega) le_rfl vs

/-! ## Scheduler batch correspondence across a block split -/

theorem beatAt_mono {sr tempo : ℚ} (hbps : 0 ≤ beatsPerSample sr tempo) {a b : ℤ} (h : a ≤ b) :
    beatAt sr tempo a ≤ beatAt sr tempo b := by
  unfold beatAt
  apply mul_le_mul_of_nonneg_right _ hbps
  exact_mod_cast h

theorem batchAt_eq_left (s : EngineState) (t : ℤ) (tempo : ℚ) (n1 n2 : ℕ)
    (hsr : 0 < s.sample_rate) (ht : 0 < tempo)
    (hd : ∀ e ∈ s.events, 0 ≤ e.duration)
    (i : ℤ) (h0 : 0 ≤ i) (hi : i < (n1 : ℤ)) :
    batchAt (ctxOf s t tempo (n1 + n2)) i = batchAt (ctxOf s t tempo n1) i := by
  have hbps := beatsPerSample_pos hsr ht
  have hP : pendOffsAt (ctxOf s t tempo (n1 + n2)) i = pendOffsAt (ctxOf s t tempo n1) i := by
    unfold pendOffsAt ctxOf
    dsimp only
    by_cases hpl : s.is_playing = true
    · rw [if_pos hpl, if_pos hpl]
      congr 1
      apply List.filter_congr
      intro p _
      rw [decide_eq_decide]
      omega
    · rw [if_neg hpl, if_neg hpl]
  have hO : schedOffsAt (ctxOf s t tempo (n1 + n2)) i = schedOffsAt (ctxOf s t tempo n1) i := by
    unfold schedOffsAt ctxOf
    dsimp only
    by_cases hpl : s.is_playing = true
    · rw [if_pos hpl, if_pos hpl]
      congr 1
      apply List.filter_congr
      intro e he
      rw [Bool.eq_iff_iff]
      simp only [Bool.and_eq_true, decide_eq_true_eq, windowedb]
      constructor
      · rintro ⟨⟨h1, h2⟩, h3, h4, h5⟩
        refine ⟨⟨h1, ?_⟩, h3, by omega, h5⟩
        by_contra hnot
        push_neg at hnot
        have := le_offOffset hbps (t := t) (m := t + (n1 : ℤ)) hnot (hd e he)
        omega
      · rintro ⟨⟨h1, h2⟩, h3, h4, h5⟩
        refine ⟨⟨h1, lt_of_lt_of_le h2 (beatAt_mono hbps.le (by push_cast; omega))⟩,
          h3, by omega, h5⟩
    · rw [if_neg hpl, if_neg hpl]
  have hN : schedOnsAt (ctxOf s t tempo (n1 + n2)) i = schedOnsAt (ctxOf s t tempo n1) i := by
    unfold schedOnsAt ctxOf
    dsimp only
    by_cases hpl : s.is_playing = true
    · rw [if_pos hpl, if_pos hpl]
      congr 1
      apply List.filter_congr
      intro e he
      rw [Bool.eq_iff_iff]
      simp only [Bool.and_eq_true, decide_eq_true_eq, windowedb]
      constructor
      · rintro ⟨⟨h1, h2⟩, h5⟩
        refine ⟨⟨h1, ?_⟩, h5⟩
        by_contra hnot
        push_neg at hnot
        have := le_onOffset hbps (t := t) (m := t + (n1 : ℤ)) hnot
        omega
      · rintro ⟨⟨h1, h2⟩, h5⟩
        exact ⟨⟨h1, lt_of_lt_of_le h2 (beatAt_mono hbps.le (by push_cast; omega))⟩, h5⟩
    · rw [if_neg hpl, if_neg hpl]
  unfold batchAt
  rw [hP, hO, hN]

theorem filter_split_sorted (E : List Event)
    (hs : E.Pairwise (fun a b => a.beat_time ≤ b.beat_time)) (c : ℚ)
    (p q x : Event → Bool)
    (hp : ∀ e, p e = true → e.beat_time < c)
    (hq : ∀ e, q e = true → c ≤ e.beat_time) :
    E.filter (fun e => (p e || q e) && x e) =
      E.filter (fun e => p e && x e) ++ E.filter (fun e => q e && x e) := by
  induction E with
  | nil => simp
  | cons a rest ih =>
    have hall : ∀ e ∈ rest, a.beat_time ≤ e.beat_time := (List.pairwise_cons.mp hs).1
    specialize ih hs.of_cons
    by_cases hqa : q a = true
    · have hpa : p a = false := by
        cases hpa2 : p a
        · rfl
        · exact absurd (hp a hpa2) (not_lt.mpr (hq a hqa))
      have hrest : rest.filter (fun e => p e && x e) = [] := by
        rw [List.filter_eq_nil_iff]
        intro e he hbe
        rw [Bool.and_eq_true] at hbe
        exact absurd (hp e hbe.1) (not_lt.mpr (le_trans (hq a hqa) (hall e he)))
      have hrest2 : (a :: rest).filter (fun e => p e && x e) = [] := by
        rw [List.filter_cons, if_neg (by simp [hpa]), hrest]
      rw [hrest2, List.nil_append, List.filter_cons, List.filter_cons, ih, hrest,
        List.nil_append]
      by_cases hxa : x a = true
      · rw [if_pos (by simp [hqa, hxa]), if_pos (by simp [hqa, hxa])]
      · rw [if_neg (by simp [hxa]), if_neg (by simp [hxa])]
    · by_cases hpa : p a = true
      · rw [List.filter_cons, List.filter_cons, List.filter_cons, ih]
        by_cases hxa : x a = true
        · rw [if_pos (by simp [hpa, hxa]), if_pos (by simp [hpa, hxa]),
            if_neg (by simp [hqa]), List.cons_append]
        · rw [if_neg (by simp [hxa]), if_neg (by simp [hxa]), if_neg (by simp [hxa])]
      · rw [List.filter_cons, List.filter_cons, List.filter_cons, ih,
          if_neg (by simp [hpa, hqa]), if_neg (by simp [hpa]), if_neg (by simp [hqa])]

theorem batchAt_eq_right (s : EngineState) (t : ℤ) (tempo : ℚ) (n1 n2 : ℕ)
    (hsr : 0 < s.sample_rate) (ht : 0 < tempo)
    (hsort : s.events.Pairwise (fun a b => a.beat_time ≤ b.beat_time))
    (hd : ∀ e ∈ s.events, 0 ≤ e.duration)
    (i : ℤ) (h1 : 1 ≤ i) (hi : i ≤ (n2 : ℤ)) :
    batchAt (ctxOf s t tempo (n1 + n2)) ((n1 : ℤ) + i) =
      batchAt (⟨s.events, newPending s t tempo n1, s.is_playing, s.sample_rate, tempo,
        t + (n1 : ℤ), n2⟩ : Ctx) i := by
  have hbps := beatsPerSample_pos hsr ht
  by_cases hpl : s.is_playing = true
  case neg =>
    unfold batchAt pendOffsAt schedOffsAt schedOnsAt ctxOf
    dsimp only
    rw [if_neg hpl, if_neg hpl, if_neg hpl, if_neg hpl, if_neg hpl, if_neg hpl]
  case pos =>
    have hplc : (ctxOf s t tempo (n1 + n2)).playing = true := hpl
    have hev : (ctxOf s t tempo (n1 + n2)).events = s.events := rfl
    have hsrp : (ctxOf s t tempo (n1 + n2)).sr = s.sample_rate := rfl
    have htp : (ctxOf s t tempo (n1 + n2)).tempo = tempo := rfl
    have http : (ctxOf s t tempo (n1 + n2)).t = t := rfl
    have hnp : (ctxOf s t tempo (n1 + n2)).n = n1 + n2 := rfl
    have hwin : ∀ e : Event, windowedb (ctxOf s t tempo (n1 + n2)) e = true ↔
        (windowedb (ctxOf s t tempo n1) e = true ∨
         (beatAt s.sample_rate tempo (t + (n1 : ℤ)) ≤ e.beat_time ∧
          e.beat_time < beatAt s.sample_rate tempo (t + ((n1 + n2 : ℕ) : ℤ)))) := by
      intro e
      simp only [windowedb, ctxOf, decide_eq_true_eq]
      constructor
      · rintro ⟨hw1, hw2⟩
        rcases lt_or_le e.beat_time (beatAt s.sample_rate tempo (t + (n1 : ℤ))) with hlt | hge
        · exact Or.inl ⟨hw1, hlt⟩
        · exact Or.inr ⟨hge, hw2⟩
      · rintro (⟨hw1, hw2⟩ | ⟨hge, hlt⟩)
        · exact ⟨hw1, lt_of_lt_of_le hw2 (beatAt_mono hbps.le (by push_cast; omega))⟩
        · exact ⟨le_trans (beatAt_mono hbps.le (by omega)) hge, hlt⟩
    have hwin2 : ∀ e : Event, windowedb (ctxOf s t tempo (n1 + n2)) e =
        (windowedb (ctxOf s t tempo n1) e ||
          decide (beatAt s.sample_rate tempo (t + (n1 : ℤ)) ≤ e.beat_time ∧
            e.beat_time < beatAt s.sample_rate tempo (t + ((n1 + n2 : ℕ) : ℤ)))) := by
      intro e
      rw [Bool.eq_iff_iff, Bool.or_eq_true, decide_eq_true_eq]
      exact hwin e
    have hPend : pendOffsAt (ctxOf s t tempo (n1 + n2)) ((n1 : ℤ) + i) =
        (s.pendingOffs.filter (fun p => decide (p.absTime = t + (n1 : ℤ) + i))).map
          (fun p => Action.NoteOff p.pitch p.track) := by
      unfold pendOffsAt ctxOf
      dsimp only
      rw [if_pos hpl]
      congr 1
      apply List.filter_congr
      intro p _
      rw [decide_eq_decide]
      omega
    have hOffs : schedOffsAt (ctxOf s t tempo (n1 + n2)) ((n1 : ℤ) + i) =
        (s.events.filter (fun e => windowedb (ctxOf s t tempo n1) e &&
          decide (0 < e.duration ∧
            offOffset s.sample_rate tempo t e ≤ ((n1 + n2 : ℕ) : ℤ) ∧
            offOffset s.sample_rate tempo t e = (n1 : ℤ) + i))).map mkOff ++
        (s.events.filter (fun e =>
          decide (beatAt s.sample_rate tempo (t + (n1 : ℤ)) ≤ e.beat_time ∧
            e.beat_time < beatAt s.sample_rate tempo (t + ((n1 + n2 : ℕ) : ℤ))) &&
          decide (0 < e.duration ∧
            offOffset s.sample_rate tempo t e ≤ ((n1 + n2 : ℕ) : ℤ) ∧
            offOffset s.sample_rate tempo t e = (n1 : ℤ) + i))).map mkOff := by
      unfold schedOffsAt
      rw [if_pos hplc]
      simp only [hev, hsrp, htp, http, hnp]
      have hstep : s.events.filter (fun e => windowedb (ctxOf s t tempo (n1 + n2)) e &&
          decide (0 < e.duration ∧
            offOffset s.sample_rate tempo t e ≤ ((n1 + n2 : ℕ) : ℤ) ∧
            offOffset s.sample_rate tempo t e = (n1 : ℤ) + i)) =
          s.events.filter (fun e => (windowedb (ctxOf s t tempo n1) e ||
            decide (beatAt s.sample_rate tempo (t + (n1 : ℤ)) ≤ e.beat_time ∧
              e.beat_time < beatAt s.sample_rate tempo (t + ((n1 + n2 : ℕ) : ℤ)))) &&
          decide (0 < e.duration ∧
            offOffset s.sample_rate tempo t e ≤ ((n1 + n2 : ℕ) : ℤ) ∧
            offOffset s.sample_rate tempo t e = (n1 : ℤ) + i)) :=
        List.filter_congr (fun e _ => by rw [hwin2 e])
      rw [hstep]
      rw [filter_split_sorted s.events hsort (beatAt s.sample_rate tempo (t + (n1 : ℤ)))
        (windowedb (ctxOf s t tempo n1))
        (fun e => decide (beatAt s.sample_rate tempo (t + (n1 : ℤ)) ≤ e.beat_time ∧
          e.beat_time < beatAt s.sample_rate tempo (t + ((n1 + n2 : ℕ) : ℤ))))
        (fun e => decide (0 < e.duration ∧
          offOffset s.sample_rate tempo t e ≤ ((n1 + n2 : ℕ) : ℤ) ∧
          offOffset s.sample_rate tempo t e = (n1 : ℤ) + i))
        (fun e hpe => by
          rw [windowedb, decide_eq_true_eq] at hpe
          exact hpe.2)
        (fun e hqe => by
          rw [decide_eq_true_eq] at hqe
          exact hqe.1)]
      rw [List.map_append]
    have hOns : schedOnsAt (ctxOf s t tempo (n1 + n2)) ((n1 : ℤ) + i) =
        (s.events.filter (fun e =>
          decide (beatAt s.sample_rate tempo (t + (n1 : ℤ)) ≤ e.beat_time ∧
            e.beat_time < beatAt s.sample_rate tempo (t + ((n1 + n2 : ℕ) : ℤ))) &&
          decide (onOffset s.sample_rate tempo t e = (n1 : ℤ) + i))).map mkOn := by
      unfold schedOnsAt
      rw [if_pos hplc]
      simp only [hev, hsrp, htp, http, hnp]
      have hstep : s.events.filter (fun e => windowedb (ctxOf s t tempo (n1 + n2)) e &&
          decide (onOffset s.sample_rate tempo t e = (n1 : ℤ) + i)) =
          s.events.filter (fun e => (windowedb (ctxOf s t tempo n1) e ||
            decide (beatAt s.sample_rate tempo (t + (n1 : ℤ)) ≤ e.beat_time ∧
              e.beat_time < beatAt s.sample_rate tempo (t + ((n1 + n2 : ℕ) : ℤ)))) &&
          decide (onOffset s.sample_rate tempo t e = (n1 : ℤ) + i)) :=
        List.filter_congr (fun e _ => by rw [hwin2 e])
      rw [hstep]
      rw [filter_split_sorted s.events hsort (beatAt s.sample_rate tempo (t + (n1 : ℤ)))
        (windowedb (ctxOf s t tempo n1))
        (fun e => decide (beatAt s.sample_rate tempo (t + (n1 : ℤ)) ≤ e.beat_time ∧
          e.beat_time < beatAt s.sample_rate tempo (t + ((n1 + n2 : ℕ) : ℤ))))
        (fun e => decide (onOffset s.sample_rate tempo t e = (n1 : ℤ) + i))
        (fun e hpe => by
          rw [windowedb, decide_eq_true_eq] at hpe
          exact hpe.2)
        (fun e hqe => by
          rw [decide_eq_true_eq] at hqe
          exact hqe.1)]
      have hempty : s.events.filter (fun e => windowedb (ctxOf s t tempo n1) e &&
          decide (onOffset s.sample_rate tempo t e = (n1 : ℤ) + i)) = [] := by
        rw [List.filter_eq_nil_iff]
        intro e _ hbe
        rw [Bool.and_eq_true, windowedb, decide_eq_true_eq, decide_eq_true_eq] at hbe
        have h2 := onOffset_le hbps (t := t) (m := t + (n1 : ℤ)) hbe.1.2
        omega
      rw [hempty, List.nil_append]
    have hP2 : pendOffsAt (⟨s.events, newPending s t tempo n1, s.is_playing,
        s.sample_rate, tempo, t + (n1 : ℤ), n2⟩ : Ctx) i =
        (s.pendingOffs.filter (fun p => decide (p.absTime = t + (n1 : ℤ) + i))).map
          (fun p => Action.NoteOff p.pitch p.track) ++
        (s.events.filter (fun e => windowedb (ctxOf s t tempo n1) e &&
          decide (0 < e.duration ∧
            offOffset s.sample_rate tempo t e ≤ ((n1 + n2 : ℕ) : ℤ) ∧
            offOffset s.sample_rate tempo t e = (n1 : ℤ) + i))).map mkOff := by
      unfold pendOffsAt
      dsimp only
      rw [if_pos hpl]
      unfold newPending
      rw [if_pos hpl]
      rw [List.filter_append, List.map_append]
      congr 1
      · rw [List.filter_filter]
        congr 1
        apply List.filter_congr
        intro p _
        rw [Bool.eq_iff_iff]
        simp only [Bool.and_eq_true, Bool.not_eq_true', decide_eq_false_iff_not,
          decide_eq_true_eq]
        omega
      · rw [List.filter_map, List.map_map, List.filter_filter]
        have hfun : ((fun p => Action.NoteOff p.pitch p.track) ∘
            (fun e => (⟨e.track, e.pitch,
              t + offOffset s.sample_rate tempo t e⟩ : PendingOff))) = mkOff := rfl
        rw [hfun]
        congr 1
        apply List.filter_congr
        intro e _
        rw [Bool.eq_iff_iff]
        simp only [Function.comp_apply, Bool.and_eq_true, decide_eq_true_eq, and_assoc]
        constructor
        · rintro ⟨hle, hmax, hw, hdur, hgt⟩
          exact ⟨hw, hdur, by omega, by omega⟩
        · rintro ⟨hw, hdur, hle, heq⟩
          exact ⟨by omega, by omega, hw, hdur, by omega⟩
    have hO2 : schedOffsAt (⟨s.events, newPending s t tempo n1, s.is_playing,
        s.sample_rate, tempo, t + (n1 : ℤ), n2⟩ : Ctx) i =
        (s.events.filter (fun e =>
          decide (beatAt s.sample_rate tempo (t + (n1 : ℤ)) ≤ e.beat_time ∧
            e.beat_time < beatAt s.sample_rate tempo (t + ((n1 + n2 : ℕ) : ℤ))) &&
          decide (0 < e.duration ∧
            offOffset s.sample_rate tempo t e ≤ ((n1 + n2 : ℕ) : ℤ) ∧
            offOffset s.sample_rate tempo t e = (n1 : ℤ) + i))).map mkOff := by
      unfold schedOffsAt
      dsimp only
      rw [if_pos hpl]
      congr 1
      apply List.filter_congr
      intro e _
      rw [offOffset_shift s.sample_rate tempo t (n1 : ℤ) e hbps.ne']
      rw [Bool.eq_iff_iff]
      simp only [windowedb, Bool.and_eq_true, decide_eq_true_eq]
      rw [show (t + (n1 : ℤ)) + ((n2 : ℕ) : ℤ) = t + ((n1 + n2 : ℕ) : ℤ) from by
        push_cast; ring]
      constructor
      · rintro ⟨hw, hdur, hle, heq⟩
        exact ⟨hw, hdur, by omega, by omega⟩
      · rintro ⟨hw, hdur, hle, heq⟩
        exact ⟨hw, hdur, by omega, by omega⟩
    have hN2 : schedOnsAt (⟨s.events, newPending s t tempo n1, s.is_playing,
        s.sample_rate, tempo, t + (n1 : ℤ), n2⟩ : Ctx) i =
        (s.events.filter (fun e =>
          decide (beatAt s.sample_rate tempo (t + (n1 : ℤ)) ≤ e.beat_time ∧
            e.beat_time < beatAt s.sample_rate tempo (t + ((n1 + n2 : ℕ) : ℤ))) &&
          decide (onOffset s.sample_rate tempo t e = (n1 : ℤ) + i))).map mkOn := by
      unfold schedOnsAt
      dsimp only
      rw [if_pos hpl]
      congr 1
      apply List.filter_congr
      intro e _
      rw [onOffset_shift s.sample_rate tempo t (n1 : ℤ) e hbps.ne']
      rw [Bool.eq_iff_iff]
      simp only [windowedb, Bool.and_eq_true, decide_eq_true_eq]
      rw [show (t + (n1 : ℤ)) + ((n2 : ℕ) : ℤ) = t + ((n1 + n2 : ℕ) : ℤ) from by
        push_cast; ring]
      constructor
      · rintro ⟨hw, heq⟩
        exact ⟨hw, by omega⟩
      · rintro ⟨hw, heq⟩
        exact ⟨hw, by omega⟩
    unfold batchAt
    rw [hPend, hOffs, hOns, hP2, hO2, hN2]
    simp only [List.append_assoc]

theorem batchAt_boundary (s : EngineState) (t : ℤ) (tempo : ℚ) (n1 n2 : ℕ)
    (sounds : List ℤ)
    (hsr : 0 < s.sample_rate) (ht : 0 < tempo)
    (hsort : s.events.Pairwise (fun a b => a.beat_time ≤ b.beat_time))
    (hd : ∀ e ∈ s.events, 0 ≤ e.duration) (ws : List Voice) :
    applyBatch sounds ws (batchAt (ctxOf s t tempo (n1 + n2)) (n1 : ℤ)) =
      applyBatch sounds (applyBatch sounds ws (batchAt (ctxOf s t tempo n1) (n1 : ℤ)))
        (batchAt (⟨s.events, newPending s t tempo n1, s.is_playing, s.sample_rate, tempo,
          t + (n1 : ℤ), n2⟩ : Ctx) 0) := by
  have hbps := beatsPerSample_pos hsr ht
  have happ : ∀ (l1 l2 : List Action) (w0 : List Voice),
      applyBatch sounds w0 (l1 ++ l2) = applyBatch sounds (applyBatch sounds w0 l1) l2 :=
    fun l1 l2 w0 => List.foldl_append _ _ _ _
  by_cases hpl : s.is_playing = true
  case neg =>
    have hb1 : batchAt (ctxOf s t tempo (n1 + n2)) (n1 : ℤ) = [] := by
      unfold batchAt pendOffsAt schedOffsAt schedOnsAt ctxOf
      dsimp only
      rw [if_neg hpl, if_neg hpl, if_neg hpl]
      rfl
    have hb2 : batchAt (ctxOf s t tempo n1) (n1 : ℤ) = [] := by
      unfold batchAt pendOffsAt schedOffsAt schedOnsAt ctxOf
      dsimp only
      rw [if_neg hpl, if_neg hpl, if_neg hpl]
      rfl
    have hb3 : batchAt (⟨s.events, newPending s t tempo n1, s.is_playing, s.sample_rate,
        tempo, t + (n1 : ℤ), n2⟩ : Ctx) 0 = [] := by
      unfold batchAt pendOffsAt schedOffsAt schedOnsAt
      dsimp only
      rw [if_neg hpl, if_neg hpl, if_neg hpl]
      rfl
    rw [hb1, hb2, hb3]
    rfl
  case pos =>
    have hplc : (ctxOf s t tempo (n1 + n2)).playing = true := hpl
    have hplc1 : (ctxOf s t tempo n1).playing = true := hpl
    have hev : (ctxOf s t tempo (n1 + n2)).events = s.events := rfl
    have hsrp : (ctxOf s t tempo (n1 + n2)).sr = s.sample_rate := rfl
    have htp : (ctxOf s t tempo (n1 + n2)).tempo = tempo := rfl
    have http : (ctxOf s t tempo (n1 + n2)).t = t := rfl
    have hnp : (ctxOf s t tempo (n1 + n2)).n = n1 + n2 := rfl
    have hev1 : (ctxOf s t tempo n1).events = s.events := rfl
    have hsrp1 : (ctxOf s t tempo n1).sr = s.sample_rate := rfl
    have htp1 : (ctxOf s t tempo n1).tempo = tempo := rfl
    have http1 : (ctxOf s t tempo n1).t = t := rfl
    have hnp1 : (ctxOf s t tempo n1).n = n1 := rfl
    have hwin : ∀ e : Event, windowedb (ctxOf s t tempo (n1 + n2)) e = true ↔
        (windowedb (ctxOf s t tempo n1) e = true ∨
         (beatAt s.sample_rate tempo (t + (n1 : ℤ)) ≤ e.beat_time ∧
          e.beat_time < beatAt s.sample_rate tempo (t + ((n1 + n2 : ℕ) : ℤ)))) := by
      intro e
      simp only [windowedb, ctxOf, decide_eq_true_eq]
      constructor
      · rintro ⟨hw1, hw2⟩
        rcases lt_or_le e.beat_time (beatAt s.sample_rate tempo (t + (n1 : ℤ))) with hlt | hge
        · exact Or.inl ⟨hw1, hlt⟩
        · exact Or.inr ⟨hge, hw2⟩
      · rintro (⟨hw1, hw2⟩ | ⟨hge, hlt⟩)
        · exact ⟨hw1, lt_of_lt_of_le hw2 (beatAt_mono hbps.le (by push_cast; omega))⟩
        · exact ⟨le_trans (beatAt_mono hbps.le (by omega)) hge, hlt⟩
    have hwin2 : ∀ e : Event, windowedb (ctxOf s t tempo (n1 + n2)) e =
        (windowedb (ctxOf s t tempo n1) e ||
          decide (beatAt s.sample_rate tempo (t + (n1 : ℤ)) ≤ e.beat_time ∧
            e.beat_time < beatAt s.sample_rate tempo (t + ((n1 + n2 : ℕ) : ℤ)))) := by
      intro e
      rw [Bool.eq_iff_iff, Bool.or_eq_true, decide_eq_true_eq]
      exact hwin e
    -- big-block pending at the boundary equals the first block's pending
    have hPendB : pendOffsAt (ctxOf s t tempo (n1 + n2)) (n1 : ℤ) =
        pendOffsAt (ctxOf s t tempo n1) (n1 : ℤ) := by
      unfold pendOffsAt ctxOf
      dsimp only
      rw [if_pos hpl, if_pos hpl]
      congr 1
      apply List.filter_congr
      intro p _
      rw [decide_eq_decide]
      omega
    -- big-block scheduled NoteOffs at the boundary, split by window
    have hOffsB : schedOffsAt (ctxOf s t tempo (n1 + n2)) (n1 : ℤ) =
        (s.events.filter (fun e => windowedb (ctxOf s t tempo n1) e &&
          decide (0 < e.duration ∧
            offOffset s.sample_rate tempo t e ≤ ((n1 + n2 : ℕ) : ℤ) ∧
            offOffset s.sample_rate tempo t e = (n1 : ℤ)))).map mkOff ++
        (s.events.filter (fun e =>
          decide (beatAt s.sample_rate tempo (t + (n1 : ℤ)) ≤ e.beat_time ∧
            e.beat_time < beatAt s.sample_rate tempo (t + ((n1 + n2 : ℕ) : ℤ))) &&
          decide (0 < e.duration ∧
            offOffset s.sample_rate tempo t e ≤ ((n1 + n2 : ℕ) : ℤ) ∧
            offOffset s.sample_rate tempo t e = (n1 : ℤ)))).map mkOff := by
      unfold schedOffsAt
      rw [if_pos hplc]
      simp only [hev, hsrp, htp, http, hnp]
      have hstep : s.events.filter (fun e => windowedb (ctxOf s t tempo (n1 + n2)) e &&
          decide (0 < e.duration ∧
            offOffset s.sample_rate tempo t e ≤ ((n1 + n2 : ℕ) : ℤ) ∧
            offOffset s.sample_rate tempo t e = (n1 : ℤ))) =
          s.events.filter (fun e => (windowedb (ctxOf s t tempo n1) e ||
            decide (beatAt s.sample_rate tempo (t + (n1 : ℤ)) ≤ e.beat_time ∧
              e.beat_time < beatAt s.sample_rate tempo (t + ((n1 + n2 : ℕ) : ℤ)))) &&
          decide (0 < e.duration ∧
            offOffset s.sample_rate tempo t e ≤ ((n1 + n2 : ℕ) : ℤ) ∧
            offOffset s.sample_rate tempo t e = (n1 : ℤ))) :=
        List.filter_congr (fun e _ => by rw [hwin2 e])
      rw [hstep]
      rw [filter_split_sorted s.events hsort (beatAt s.sample_rate tempo (t + (n1 : ℤ)))
        (windowedb (ctxOf s t tempo n1))
        (fun e => decide (beatAt s.sample_rate tempo (t + (n1 : ℤ)) ≤ e.beat_time ∧
          e.beat_time < beatAt s.sample_rate tempo (t + ((n1 + n2 : ℕ) : ℤ))))
        (fun e => decide (0 < e.duration ∧
          offOffset s.sample_rate tempo t e ≤ ((n1 + n2 : ℕ) : ℤ) ∧
          offOffset s.sample_rate tempo t e = (n1 : ℤ)))
        (fun e hpe => by
          rw [windowedb, decide_eq_true_eq] at hpe
          exact hpe.2)
        (fun e hqe => by
          rw [decide_eq_true_eq] at hqe
          exact hqe.1)]
      rw [List.map_append]
    -- big-block scheduled NoteOns at the boundary, split by window
    have hOnsB : schedOnsAt (ctxOf s t tempo (n1 + n2)) (n1 : ℤ) =
        (s.events.filter (fun e => windowedb (ctxOf s t tempo n1) e &&
          decide (onOffset s.sample_rate tempo t e = (n1 : ℤ)))).map mkOn ++
        (s.events.filter (fun e =>
          decide (beatAt s.sample_rate tempo (t + (n1 : ℤ)) ≤ e.beat_time ∧
            e.beat_time < beatAt s.sample_rate tempo (t + ((n1 + n2 : ℕ) : ℤ))) &&
          decide (onOffset s.sample_rate tempo t e = (n1 : ℤ)))).map mkOn := by
      unfold schedOnsAt
      rw [if_pos hplc]
      simp only [hev, hsrp, htp, http, hnp]
      have hstep : s.events.filter (fun e => windowedb (ctxOf s t tempo (n1 + n2)) e &&
          decide (onOffset s.sample_rate tempo t e = (n1 : ℤ))) =
          s.events.filter (fun e => (windowedb (ctxOf s t tempo n1) e ||
            decide (beatAt s.sample_rate tempo (t + (n1 : ℤ)) ≤ e.beat_time ∧
              e.beat_time < beatAt s.sample_rate tempo (t + ((n1 + n2 : ℕ) : ℤ)))) &&
          decide (onOffset s.sample_rate tempo t e = (n1 : ℤ))) :=
        List.filter_congr (fun e _ => by rw [hwin2 e])
      rw [hstep]
      rw [filter_split_sorted s.events hsort (beatAt s.sample_rate tempo (t + (n1 : ℤ)))
        (windowedb (ctxOf s t tempo n1))
        (fun e => decide (beatAt s.sample_rate tempo (t + (n1 : ℤ)) ≤ e.beat_time ∧
          e.beat_time < beatAt s.sample_rate tempo (t + ((n1 + n2 : ℕ) : ℤ))))
        (fun e => decide (onOffset s.sample_rate tempo t e = (n1 : ℤ)))
        (fun e hpe => by
          rw [windowedb, decide_eq_true_eq] at hpe
          exact hpe.2)
        (fun e hqe => by
          rw [decide_eq_true_eq] at hqe
          exact hqe.1)]
      rw [List.map_append]
    -- first block components at its final offset
    have hOffs1 : schedOffsAt (ctxOf s t tempo n1) (n1 : ℤ) =
        (s.events.filter (fun e => windowedb (ctxOf s t tempo n1) e &&
          decide (0 < e.duration ∧
            offOffset s.sample_rate tempo t e ≤ ((n1 + n2 : ℕ) : ℤ) ∧
            offOffset s.sample_rate tempo t e = (n1 : ℤ)))).map mkOff := by
      unfold schedOffsAt
      rw [if_pos hplc1]
      simp only [hev1, hsrp1, htp1, http1, hnp1]
      congr 1
      apply List.filter_congr
      intro e _
      rw [Bool.eq_iff_iff]
      simp only [Bool.and_eq_true, decide_eq_true_eq, and_assoc]
      constructor
      · rintro ⟨hw, hdur, hle, heq⟩
        exact ⟨hw, hdur, by omega, heq⟩
      · rintro ⟨hw, hdur, hle, heq⟩
        exact ⟨hw, hdur, by omega, heq⟩
    have hOns1 : schedOnsAt (ctxOf s t tempo n1) (n1 : ℤ) =
        (s.events.filter (fun e => windowedb (ctxOf s t tempo n1) e &&
          decide (onOffset s.sample_rate tempo t e = (n1 : ℤ)))).map mkOn := by
      unfold schedOnsAt
      rw [if_pos hplc1]
      simp only [hev1, hsrp1, htp1, http1, hnp1]
    have hPend1 : pendOffsAt (ctxOf s t tempo n1) (n1 : ℤ) =
        pendOffsAt (ctxOf s t tempo n1) (n1 : ℤ) := rfl
    -- second block components at offset zero
    have hP20 : pendOffsAt (⟨s.events, newPending s t tempo n1, s.is_playing,
        s.sample_rate, tempo, t + (n1 : ℤ), n2⟩ : Ctx) 0 = [] := by
      unfold pendOffsAt
      dsimp only
      rw [if_pos hpl]
      have hnil : (newPending s t tempo n1).filter (fun p =>
          decide (p.absTime ≤ t + (n1 : ℤ) + ((n2 : ℕ) : ℤ) ∧
            max 0 (p.absTime - (t + (n1 : ℤ))) = 0)) = [] := by
        rw [List.filter_eq_nil_iff]
        intro p hp hbp
        rw [decide_eq_true_eq] at hbp
        unfold newPending at hp
        rw [if_pos hpl, List.mem_append] at hp
        rcases hp with hp | hp
        · rw [List.mem_filter] at hp
          have h2 := hp.2
          simp only [Bool.not_eq_true', decide_eq_false_iff_not] at h2
          omega
        · rw [List.mem_map] at hp
          obtain ⟨e, he, rfl⟩ := hp
          rw [List.mem_filter, Bool.and_eq_true, decide_eq_true_eq] at he
          have h2 := he.2.2
          dsimp only at hbp
          omega
      rw [hnil]
      rfl
    have hO20 : schedOffsAt (⟨s.events, newPending s t tempo n1, s.is_playing,
        s.sample_rate, tempo, t + (n1 : ℤ), n2⟩ : Ctx) 0 =
        (s.events.filter (fun e =>
          decide (beatAt s.sample_rate tempo (t + (n1 : ℤ)) ≤ e.beat_time ∧
            e.beat_time < beatAt s.sample_rate tempo (t + ((n1 + n2 : ℕ) : ℤ))) &&
          decide (0 < e.duration ∧
            offOffset s.sample_rate tempo t e ≤ ((n1 + n2 : ℕ) : ℤ) ∧
            offOffset s.sample_rate tempo t e = (n1 : ℤ)))).map mkOff := by
      unfold schedOffsAt
      dsimp only
      rw [if_pos hpl]
      congr 1
      apply List.filter_congr
      intro e _
      rw [offOffset_shift s.sample_rate tempo t (n1 : ℤ) e hbps.ne']
      rw [Bool.eq_iff_iff]
      simp only [windowedb, Bool.and_eq_true, decide_eq_true_eq]
      rw [show (t + (n1 : ℤ)) + ((n2 : ℕ) : ℤ) = t + ((n1 + n2 : ℕ) : ℤ) from by
        push_cast; ring]
      constructor
      · rintro ⟨hw, hdur, hle, heq⟩
        exact ⟨hw, hdur, by omega, by omega⟩
      · rintro ⟨hw, hdur, hle, heq⟩
        exact ⟨hw, hdur, by omega, by omega⟩
    have hN20 : schedOnsAt (⟨s.events, newPending s t tempo n1, s.is_playing,
        s.sample_rate, tempo, t + (n1 : ℤ), n2⟩ : Ctx) 0 =
        (s.events.filter (fun e =>
          decide (beatAt s.sample_rate tempo (t + (n1 : ℤ)) ≤ e.beat_time ∧
            e.beat_time < beatAt s.sample_rate tempo (t + ((n1 + n2 : ℕ) : ℤ))) &&
          decide (onOffset s.sample_rate tempo t e = (n1 : ℤ)))).map mkOn := by
      unfold schedOnsAt
      dsimp only
      rw [if_pos hpl]
      congr 1
      apply List.filter_congr
      intro e _
      rw [onOffset_shift s.sample_rate tempo t (n1 : ℤ) e hbps.ne']
      rw [Bool.eq_iff_iff]
      simp only [windowedb, Bool.and_eq_true, decide_eq_true_eq]
      rw [show (t + (n1 : ℤ)) + ((n2 : ℕ) : ℤ) = t + ((n1 + n2 : ℕ) : ℤ) from by
        push_cast; ring]
      constructor
      · rintro ⟨hw, heq⟩
        exact ⟨hw, by omega⟩
      · rintro ⟨hw, heq⟩
        exact ⟨hw, by omega⟩
    -- every deferred NoteOff of the second window at the boundary has its
    -- NoteOn in the same batch
    have hswap := applyBatch_swap sounds
      ((s.events.filter (fun e =>
        decide (beatAt s.sample_rate tempo (t + (n1 : ℤ)) ≤ e.beat_time ∧
          e.beat_time < beatAt s.sample_rate tempo (t + ((n1 + n2 : ℕ) : ℤ))) &&
        decide (0 < e.duration ∧
          offOffset s.sample_rate tempo t e ≤ ((n1 + n2 : ℕ) : ℤ) ∧
          offOffset s.sample_rate tempo t e = (n1 : ℤ)))).map mkOff)
      ((s.events.filter (fun e => windowedb (ctxOf s t tempo n1) e &&
        decide (onOffset s.sample_rate tempo t e = (n1 : ℤ)))).map mkOn)
      ((s.events.filter (fun e =>
        decide (beatAt s.sample_rate tempo (t + (n1 : ℤ)) ≤ e.beat_time ∧
          e.beat_time < beatAt s.sample_rate tempo (t + ((n1 + n2 : ℕ) : ℤ))) &&
        decide (onOffset s.sample_rate tempo t e = (n1 : ℤ)))).map mkOn)
      (by
        intro a ha i hai
        rw [List.mem_map] at ha
        obtain ⟨e, he, rfl⟩ := ha
        rw [List.mem_filter, Bool.and_eq_true, decide_eq_true_eq, decide_eq_true_eq] at he
        obtain ⟨hmem, ⟨hwlo, hwhi⟩, hdur, hle, heq⟩ := he
        have hon_ge : (t + (n1 : ℤ)) - t ≤ onOffset s.sample_rate tempo t e :=
          le_onOffset hbps hwlo
        have hon_le : onOffset s.sample_rate tempo t e ≤ offOffset s.sample_rate tempo t e :=
          onOffset_le_offOffset hbps t (hd e hmem)
        have hon : onOffset s.sample_rate tempo t e = (n1 : ℤ) := by omega
        refine ⟨mkOn e, ?_, ?_⟩
        · rw [List.mem_map]
          refine ⟨e, ?_, rfl⟩
          rw [List.mem_filter, Bool.and_eq_true, decide_eq_true_eq, decide_eq_true_eq]
          exact ⟨hmem, ⟨hwlo, hwhi⟩, hon⟩
        · exact hai
      )
      (by
        intro b hb
        rw [List.mem_map] at hb
        obtain ⟨e, he, rfl⟩ := hb
        exact ⟨e.pitch, e.velocity, e.track, e.param1, e.param2, rfl⟩)
    -- assemble
    unfold batchAt
    rw [hPendB, hOffsB, hOnsB, hOffs1, hOns1, hP20, hO20, hN20]
    rw [← happ]
    simp only [List.nil_append, List.append_assoc]
    conv_lhs => rw [happ, happ]
    conv_rhs => rw [happ, happ]
    exact hswap _

theorem filter_of_map {α β : Type} (f : α → β) (p : β → Bool) (L : List α) :
    (L.map f).filter p = (L.filter (fun a => p (f a))).map f := by
  induction L with
  | nil => rfl
  | cons a r ih =>
    simp only [List.map_cons, List.filter_cons, ih]
    cases h : p (f a) <;> simp [h]

theorem newPending_split (s : EngineState) (t : ℤ) (tempo : ℚ) (n1 n2 : ℕ)
    (hsr : 0 < s.sample_rate) (ht : 0 < tempo)
    (hsort : s.events.Pairwise (fun a b => a.beat_time ≤ b.beat_time))
    (hd : ∀ e ∈ s.events, 0 ≤ e.duration) :
    newPending s t tempo (n1 + n2) =
      newPending { s with pendingOffs := newPending s t tempo n1 }
        (t + (n1 : ℤ)) tempo n2 := by
  have hbps := beatsPerSample_pos hsr ht
  by_cases hpl : s.is_playing = true
  case neg =>
    unfold newPending
    dsimp only
    rw [if_neg hpl, if_neg hpl, if_neg hpl]
  case pos =>
    unfold newPending windowedb ctxOf
    dsimp only
    rw [if_pos hpl, if_pos hpl, if_pos hpl]
    have h1 : (s.pendingOffs.filter
          (fun p => !decide (p.absTime ≤ t + (n1 : ℤ)))).filter
          (fun p => !decide (p.absTime ≤ t + (n1 : ℤ) + (n2 : ℤ))) =
        s.pendingOffs.filter
          (fun p => !decide (p.absTime ≤ t + ((n1 + n2 : ℕ) : ℤ))) := by
      rw [List.filter_filter]
      apply List.filter_congr
      intro p _
      rw [Bool.eq_iff_iff]
      simp only [Bool.and_eq_true, Bool.not_eq_true', decide_eq_false_iff_not]
      omega
    have h2 : (((s.events.filter (fun e =>
            decide (beatAt s.sample_rate tempo t ≤ e.beat_time ∧
              e.beat_time < beatAt s.sample_rate tempo (t + (n1 : ℤ))) &&
            decide (0 < e.duration ∧
              (n1 : ℤ) < offOffset s.sample_rate tempo t e))).map
          (fun e => (⟨e.track, e.pitch,
            t + offOffset s.sample_rate tempo t e⟩ : PendingOff))).filter
          (fun p => !decide (p.absTime ≤ t + (n1 : ℤ) + (n2 : ℤ)))) =
        (s.events.filter (fun e =>
          decide (beatAt s.sample_rate tempo t ≤ e.beat_time ∧
            e.beat_time < beatAt s.sample_rate tempo (t + (n1 : ℤ))) &&
          decide (0 < e.duration ∧
            ((n1 + n2 : ℕ) : ℤ) < offOffset s.sample_rate tempo t e))).map
          (fun e => (⟨e.track, e.pitch,
            t + offOffset s.sample_rate tempo t e⟩ : PendingOff)) := by
      rw [filter_of_map, List.filter_filter]
      congr 1
      apply List.filter_congr
      intro e _
      rw [Bool.eq_iff_iff]
      simp only [Bool.and_eq_true, decide_eq_true_eq, Bool.not_eq_true',
        decide_eq_false_iff_not]
      constructor
      · rintro ⟨hpc, hw, hd1, hoff⟩
        exact ⟨hw, hd1, by omega⟩
      · rintro ⟨hw, hd1, hoff⟩
        exact ⟨by omega, hw, hd1, by omega⟩
    have h3 : (s.events.filter (fun e =>
          decide (beatAt s.sample_rate tempo (t + (n1 : ℤ)) ≤ e.beat_time ∧
            e.beat_time < beatAt s.sample_rate tempo (t + (n1 : ℤ) + (n2 : ℤ))) &&
          decide (0 < e.duration ∧
            (n2 : ℤ) < offOffset s.sample_rate tempo (t + (n1 : ℤ)) e))).map
          (fun e => (⟨e.track, e.pitch, t + (n1 : ℤ) +
            offOffset s.sample_rate tempo (t + (n1 : ℤ)) e⟩ : PendingOff)) =
        (s.events.filter (fun e =>
          decide (beatAt s.sample_rate tempo (t + (n1 : ℤ)) ≤ e.beat_time ∧
            e.beat_time < beatAt s.sample_rate tempo (t + ((n1 + n2 : ℕ) : ℤ))) &&
          decide (0 < e.duration ∧
            ((n1 + n2 : ℕ) : ℤ) < offOffset s.sample_rate tempo t e))).map
          (fun e => (⟨e.track, e.pitch,
            t + offOffset s.sample_rate tempo t e⟩ : PendingOff)) := by
      rw [show s.events.filter (fun e =>
          decide (beatAt s.sample_rate tempo (t + (n1 : ℤ)) ≤ e.beat_time ∧
            e.beat_time < beatAt s.sample_rate tempo (t + (n1 : ℤ) + (n2 : ℤ))) &&
          decide (0 < e.duration ∧
            (n2 : ℤ) < offOffset s.sample_rate tempo (t + (n1 : ℤ)) e)) =
        s.events.filter (fun e =>
          decide (beatAt s.sample_rate tempo (t + (n1 : ℤ)) ≤ e.beat_time ∧
            e.beat_time < beatAt s.sample_rate tempo (t + ((n1 + n2 : ℕ) : ℤ))) &&
          decide (0 < e.duration ∧
            ((n1 + n2 : ℕ) : ℤ) < offOffset s.sample_rate tempo t e)) from by
        apply List.filter_congr
        intro e _
        rw [offOffset_shift s.sample_rate tempo t (n1 : ℤ) e hbps.ne']
        rw [show (t + (n1 : ℤ)) + (n2 : ℤ) = t + ((n1 + n2 : ℕ) : ℤ) from by
          push_cast; ring]
        rw [Bool.eq_iff_iff]
        simp only [Bool.and_eq_true, decide_eq_true_eq]
        constructor
        · rintro ⟨hw, hd1, hoff⟩
          exact ⟨hw, hd1, by omega⟩
        · rintro ⟨hw, hd1, hoff⟩
          exact ⟨hw, hd1, by omega⟩]
      apply List.map_congr_left
      intro e _
      rw [offOffset_shift s.sample_rate tempo t (n1 : ℤ) e hbps.ne']
      congr 1
      ring
    have hsplitL : s.events.filter (fun e =>
          decide (beatAt s.sample_rate tempo t ≤ e.beat_time ∧
            e.beat_time < beatAt s.sample_rate tempo (t + ((n1 + n2 : ℕ) : ℤ))) &&
          decide (0 < e.duration ∧
            ((n1 + n2 : ℕ) : ℤ) < offOffset s.sample_rate tempo t e)) =
        s.events.filter (fun e =>
          (decide (beatAt s.sample_rate tempo t ≤ e.beat_time ∧
             e.beat_time < beatAt s.sample_rate tempo (t + (n1 : ℤ))) ||
           decide (beatAt s.sample_rate tempo (t + (n1 : ℤ)) ≤ e.beat_time ∧
             e.beat_time < beatAt s.sample_rate tempo (t + ((n1 + n2 : ℕ) : ℤ)))) &&
          decide (0 < e.duration ∧
            ((n1 + n2 : ℕ) : ℤ) < offOffset s.sample_rate tempo t e)) := by
      apply List.filter_congr
      intro e _
      rw [Bool.eq_iff_iff]
      simp only [Bool.and_eq_true, Bool.or_eq_true, decide_eq_true_eq]
      constructor
      · rintro ⟨⟨hw1, hw2⟩, hx⟩
        rcases lt_or_le e.beat_time (beatAt s.sample_rate tempo (t + (n1 : ℤ))) with hlt | hge
        · exact ⟨Or.inl ⟨hw1, hlt⟩, hx⟩
        · exact ⟨Or.inr ⟨hge, hw2⟩, hx⟩
      · rintro ⟨(⟨hw1, hw2⟩ | ⟨hge, hlt⟩), hx⟩
        · exact ⟨⟨hw1, lt_of_lt_of_le hw2 (beatAt_mono hbps.le (by push_cast; omega))⟩, hx⟩
        · exact ⟨⟨le_trans (beatAt_mono hbps.le (by omega)) hge, hlt⟩, hx⟩
    rw [hsplitL]
    rw [filter_split_sorted s.events hsort (beatAt s.sample_rate tempo (t + (n1 : ℤ)))
      (fun e => decide (beatAt s.sample_rate tempo t ≤ e.beat_time ∧
        e.beat_time < beatAt s.sample_rate tempo (t + (n1 : ℤ))))
      (fun e => decide (beatAt s.sample_rate tempo (t + (n1 : ℤ)) ≤ e.beat_time ∧
        e.beat_time < beatAt s.sample_rate tempo (t + ((n1 + n2 : ℕ) : ℤ))))
      (fun e => decide (0 < e.duration ∧
        ((n1 + n2 : ℕ) : ℤ) < offOffset s.sample_rate tempo t e))
      (fun e hpe => by
        rw [decide_eq_true_eq] at hpe
        exact hpe.2)
      (fun e hqe => by
        rw [decide_eq_true_eq] at hqe
        exact hqe.1)]
    rw [List.map_append, List.filter_append, h1, h2, h3, List.append_assoc]

theorem renderBlock_nq (s : EngineState) (t : ℤ) (tempo : ℚ) (m : ℕ)
    (hq : s.queue = []) :
    renderBlock s t tempo m =
      ({ s with voices := (runLoop (ctxOf s t tempo m) s.sounds s.voices 0 m).1, pendingOffs := newPending s t tempo m },
       (runLoop (ctxOf s t tempo m) s.sounds s.voices 0 m).2) := by
  unfold renderBlock drainQueue
  dsimp only
  rw [hq]
  dsimp only [List.foldl_nil, List.filter_nil]
  rw [set_queue_nil s hq]

theorem renderBlock_add (s : EngineState) (t : ℤ) (tempo : ℚ) (n1 n2 : ℕ)
    (hq : s.queue = []) (hsr : 0 < s.sample_rate) (ht : 0 < tempo)
    (hsort : s.events.Pairwise (fun a b => a.beat_time ≤ b.beat_time))
    (hd : ∀ e ∈ s.events, 0 ≤ e.duration) :
    renderBlock s t tempo (n1 + n2) =
      ((renderBlock (renderBlock s t tempo n1).1 (t + (n1 : ℤ)) tempo n2).1,
       (renderBlock s t tempo n1).2 ++
         (renderBlock (renderBlock s t tempo n1).1 (t + (n1 : ℤ)) tempo n2).2) := by
  have hsplit := runLoop_split (ctxOf s t tempo (n1 + n2)) (ctxOf s t tempo n1)
    (⟨s.events, newPending s t tempo n1, s.is_playing, s.sample_rate, tempo,
      t + (n1 : ℤ), n2⟩ : Ctx) s.sounds n1 n2
    (fun i h0 hi => batchAt_eq_left s t tempo n1 n2 hsr ht hd i h0 hi)
    (fun i h1 hi => batchAt_eq_right s t tempo n1 n2 hsr ht hsort hd i h1 hi)
    (fun ws => batchAt_boundary s t tempo n1 n2 s.sounds hsr ht hsort hd ws)
    s.voices
  have hq1 : (renderBlock s t tempo n1).1.queue = [] := by
    rw [renderBlock_nq s t tempo n1 hq]
    exact hq
  rw [renderBlock_nq _ (t + (n1 : ℤ)) tempo n2 hq1]
  rw [renderBlock_nq s t tempo (n1 + n2) hq, renderBlock_nq s t tempo n1 hq]
  rw [hsplit]
  rw [newPending_split s t tempo n1 n2 hsr ht hsort hd]
  rfl

/-- C2: block-size invariance.  For any partition of a time span into
consecutive render blocks of sizes b1, b2, ... (each at most
MAX_BUFFER_SIZE), the concatenation of the per-block outputs equals the
output of rendering the whole span as a single block; in the rational
model the equality is exact, which implies the claimed 1e-5 per-sample
tolerance. -/
theorem block_size_invariance (s : EngineState) (t : ℤ) (tempo : ℚ) (bs : List ℕ)
    (hq : s.queue = []) (hsr : 0 < s.sample_rate) (ht : 0 < tempo)
    (hsort : s.events.Pairwise (fun a b => a.beat_time ≤ b.beat_time))
    (hd : ∀ e ∈ s.events, 0 ≤ e.duration)
    (hb : ∀ b ∈ bs, b ≤ MAX_BUFFER_SIZE) :
    (runBlocks s t tempo bs).2 = (renderBlock s t tempo bs.sum).2 := by
  induction bs generalizing s t with
  | nil =>
    rw [renderBlock_nq s t tempo (List.sum []) hq]
    rfl
  | cons b rest ih =>
    rw [List.sum_cons, renderBlock_add s t tempo b rest.sum hq hsr ht hsort hd]
    have hqX : (renderBlock s t tempo b).1.queue = [] := by
      rw [renderBlock_nq s t tempo b hq]
      exact hq
    have hsrX : 0 < (renderBlock s t tempo b).1.sample_rate := by
      rw [renderBlock_nq s t tempo b hq]
      exact hsr
    have hsortX : (renderBlock s t tempo b).1.events.Pairwise
        (fun a b => a.beat_time ≤ b.beat_time) := by
      rw [renderBlock_nq s t tempo b hq]
      exact hsort
    have hdX : ∀ e ∈ (renderBlock s t tempo b).1.events, 0 ≤ e.duration := by
      rw [renderBlock_nq s t tempo b hq]
      exact hd
    have hrec := ih (renderBlock s t tempo b).1 (t + (b : ℤ)) hqX hsrX hsortX hdX
      (fun b' hb' => hb b' (List.mem_cons_of_mem b hb'))
    show (renderBlock s t tempo b).2 ++
        (runBlocks (renderBlock s t tempo b).1 (t + (b : ℤ)) tempo rest).2 = _
    rw [hrec]

theorem block_size_invariance_witness :
    (c2State.queue = [] ∧ 0 < c2State.sample_rate ∧ 0 < (60 : ℚ) ∧
     c2State.events.Pairwise (fun a b => a.beat_time ≤ b.beat_time) ∧
     (∀ e ∈ c2State.events, 0 ≤ e.duration) ∧
     (∀ b ∈ ([2, 3] : List ℕ), b ≤ MAX_BUFFER_SIZE)) ∧
    (runBlocks c2State 0 60 [2, 3]).2 = (renderBlock c2State 0 60 ([2, 3] : List ℕ).sum).2 :=
  ⟨⟨rfl, by decide, by decide, by decide, by decide, by decide⟩,
   block_size_invariance c2State 0 60 [2, 3] rfl (by decide) (by decide) (by decide)
     (by decide) (by decide)⟩

theorem countP_bucket_sum_gen {α : Type} (l : List α) (g : α → ℤ) (P Q : α → Bool) (m : ℕ)
    (hg : ∀ e ∈ l, P e = true → 0 ≤ g e ∧ g e < m) :
    ((List.range m).map
      (fun (o : ℕ) => l.countP (fun e => (P e && decide (g e = (o : ℤ))) && Q e))).sum =
      l.countP (fun e => P e && Q e) := by
  induction l with
  | nil => simp
  | cons e rest ih =>
    have hrest : ∀ e' ∈ rest, P e' = true → 0 ≤ g e' ∧ g e' < m := fun e' he' =>
      hg e' (List.mem_cons_of_mem e he')
    have hstep : (List.range m).map (fun (o : ℕ) =>
        List.countP (fun e' => (P e' && decide (g e' = (o : ℤ))) && Q e') (e :: rest)) =
        (List.range m).map (fun (o : ℕ) =>
          List.countP (fun e' => (P e' && decide (g e' = (o : ℤ))) && Q e') rest +
            if ((P e && decide (g e = (o : ℤ))) && Q e) = true then 1 else 0) :=
      List.map_congr_left (fun o _ => List.countP_cons _ e rest)
    rw [hstep, sum_map_add_nat, ih hrest, List.countP_cons]
    congr 1
    by_cases hPe : P e = true
    · by_cases hQ : Q e = true
      · have hge := hg e (List.mem_cons_self e rest) hPe
        have hpt : ∀ o : ℕ, (if ((P e && decide (g e = (o : ℤ))) && Q e) = true then 1 else 0) =
            (if g e = (o : ℤ) then 1 else 0) := by
          intro o
          by_cases hgo : g e = (o : ℤ) <;> simp [hPe, hQ, hgo]
        rw [List.map_congr_left (fun o _ => hpt o), sum_map_range_ite]
        simp [hPe, hQ, hge.1, hge.2]
      · have hQ2 : Q e = false := by
          cases hQe : Q e
          · rfl
          · exact absurd hQe hQ
        simp [hQ2]
    · have hP2 : P e = false := by
        cases hPe2 : P e
        · rfl
        · exact absurd hPe2 hPe
      simp [hP2]

theorem newPending_lb (s : EngineState) (t : ℤ) (tempo : ℚ) (n : ℕ)
    (hpl : s.is_playing = true) :
    ∀ p ∈ newPending s t tempo n, t + (n : ℤ) < p.absTime := by
  intro p hp
  unfold newPending at hp
  rw [if_pos hpl, List.mem_append] at hp
  rcases hp with hp | hp
  · rw [List.mem_filter] at hp
    have h2 := hp.2
    simp only [Bool.not_eq_true', decide_eq_false_iff_not] at h2
    omega
  · rw [List.mem_map] at hp
    obtain ⟨e, he, rfl⟩ := hp
    rw [List.mem_filter, Bool.and_eq_true, decide_eq_true_eq] at he
    have h2 := he.2.2
    dsimp only
    omega

theorem countP_flatMap_sum {α β : Type} (f : α → List β) (q : β → Bool) (L : List α) :
    (L.flatMap f).countP q = (L.map (fun a => (f a).countP q)).sum := by
  induction L with
  | nil => rfl
  | cons a r ih =>
    rw [List.flatMap_cons, List.countP_append, List.map_cons, List.sum_cons, ih]

theorem ctxOffsTimed_perm (C : Ctx) (hsr : 0 < C.sr) (ht : 0 < C.tempo)
    (hpl : C.playing = true) (hd : ∀ e ∈ C.events, 0 ≤ e.duration)
    (hP : ∀ p ∈ C.pend, C.t < p.absTime) :
    (ctxOffsTimed C).Perm
      ((C.pend.filter (fun p => decide (p.absTime ≤ C.t + (C.n : ℤ)))).map
        (fun p => (p.absTime, Action.NoteOff p.pitch p.track)) ++
       (C.events.filter (fun e => windowedb C e &&
          decide (0 < e.duration ∧ offOffset C.sr C.tempo C.t e ≤ (C.n : ℤ)))).map
        (fun e => (C.t + offOffset C.sr C.tempo C.t e, mkOff e))) := by
  have hbps : 0 < beatsPerSample C.sr C.tempo := beatsPerSample_pos hsr ht
  rw [List.perm_iff_count]
  intro x
  have hcv : ∀ l : List (ℤ × Action),
      @List.count _ instBEqOfDecidableEq x l = l.countP (fun a => decide (a = x)) := by
    intro l
    rfl
  rw [hcv, hcv]
  unfold ctxOffsTimed
  rw [countP_flatMap_sum, List.countP_append]
  have hpt : (List.range (C.n + 1)).map (fun (o : ℕ) =>
      ((pendOffsAt C (o : ℤ) ++ schedOffsAt C (o : ℤ)).map
        (fun a => (C.t + (o : ℤ), a))).countP (fun a => decide (a = x))) =
      (List.range (C.n + 1)).map (fun (o : ℕ) =>
        C.pend.countP (fun p =>
          (decide (p.absTime ≤ C.t + (C.n : ℤ)) && decide (p.absTime - C.t = (o : ℤ))) &&
            decide ((p.absTime, Action.NoteOff p.pitch p.track) = x)) +
        C.events.countP (fun e =>
          ((windowedb C e &&
            decide (0 < e.duration ∧ offOffset C.sr C.tempo C.t e ≤ (C.n : ℤ))) &&
            decide (offOffset C.sr C.tempo C.t e = (o : ℤ))) &&
            decide ((C.t + offOffset C.sr C.tempo C.t e, mkOff e) = x))) := by
    apply List.map_congr_left
    intro o _
    simp only [List.map_append, List.countP_append]
    congr 1
    · simp only [pendOffsAt, hpl, if_true, List.map_map, List.countP_map,
        List.countP_filter]
      apply List.countP_congr
      intro p hp
      have hPp := hP p hp
      simp only [Function.comp_apply, Bool.and_eq_true, decide_eq_true_eq]
      constructor
      · rintro ⟨hpair, hle, hmax⟩
        refine ⟨⟨hle, by omega⟩, ?_⟩
        have habs : p.absTime = C.t + (o : ℤ) := by omega
        rw [habs]
        exact hpair
      · rintro ⟨⟨hle, hdiff⟩, hpair⟩
        refine ⟨?_, hle, by omega⟩
        have habs : p.absTime = C.t + (o : ℤ) := by omega
        rw [← habs]
        exact hpair
    · simp only [schedOffsAt, hpl, if_true, List.map_map, List.countP_map,
        List.countP_filter]
      apply List.countP_congr
      intro e _
      simp only [Function.comp_apply, Bool.and_eq_true, decide_eq_true_eq]
      constructor
      · rintro ⟨hpair, hw, hdur, hle, heq⟩
        refine ⟨⟨⟨hw, hdur, hle⟩, heq⟩, ?_⟩
        rw [heq]
        exact hpair
      · rintro ⟨⟨⟨hw, hdur, hle⟩, heq⟩, hpair⟩
        refine ⟨?_, hw, hdur, hle, heq⟩
        rw [heq] at hpair
        exact hpair
  rw [hpt, sum_map_add_nat]
  congr 1
  · rw [countP_bucket_sum_gen C.pend (fun p => p.absTime - C.t)
      (fun p => decide (p.absTime ≤ C.t + (C.n : ℤ)))
      (fun p => decide ((p.absTime, Action.NoteOff p.pitch p.track) = x)) (C.n + 1) ?_]
    · rw [List.countP_map, List.countP_filter]
      apply List.countP_congr
      intro p _
      simp only [Function.comp_apply, Bool.and_eq_true, decide_eq_true_eq]
      tauto
    · intro p hp hPp2
      rw [decide_eq_true_eq] at hPp2
      have := hP p hp
      dsimp only
      constructor
      · omega
      · push_cast
        omega
  · rw [countP_bucket_sum_gen C.events (fun e => offOffset C.sr C.tempo C.t e)
      (fun e => windowedb C e &&
        decide (0 < e.duration ∧ offOffset C.sr C.tempo C.t e ≤ (C.n : ℤ)))
      (fun e => decide ((C.t + offOffset C.sr C.tempo C.t e, mkOff e) = x)) (C.n + 1) ?_]
    · rw [List.countP_map, List.countP_filter]
      apply List.countP_congr
      intro e _
      simp only [Function.comp_apply, Bool.and_eq_true, decide_eq_true_eq]
      tauto
    · intro e he hPe
      rw [Bool.and_eq_true, decide_eq_true_eq] at hPe
      obtain ⟨hw, hdur, hle⟩ := hPe
      rw [windowedb, decide_eq_true_eq] at hw
      have hon := onOffset_nonneg hbps hw.1
      have hoo := onOffset_le_offOffset hbps C.t (hd e he)
      dsimp only
      constructor
      · omega
      · push_cast
        omega

theorem count_to_countP (x : ℤ × Action) (l : List (ℤ × Action)) :
    @List.count _ instBEqOfDecidableEq x l = l.countP (fun a => decide (a = x)) := rfl

theorem filter_union_perm {α : Type} (l : List α) (c q : α → Bool) :
    (l.filter c).Perm
      (l.filter (fun a => q a && c a) ++ l.filter (fun a => !q a && c a)) := by
  induction l with
  | nil => simp
  | cons a r ih =>
    by_cases hc : c a = true
    · by_cases hq : q a = true
      · simp only [List.filter_cons, hc, hq, Bool.not_true, Bool.true_and, Bool.false_and,
          if_true, if_false, List.cons_append]
        exact ih.cons a
      · have hq2 : q a = false := by
          cases hqa : q a
          · rfl
          · exact absurd hqa hq
        simp only [List.filter_cons, hc, hq2, Bool.not_false, Bool.true_and, Bool.false_and,
          if_true, if_false]
        exact (ih.cons a).trans List.perm_middle.symm
    · have hc2 : c a = false := by
        cases hca : c a
        · rfl
        · exact absurd hca hc
      simp only [List.filter_cons, hc2, Bool.and_false, if_false]
      exact ih

theorem runOffs_spec (tempo : ℚ) (bs : List ℕ) :
    ∀ (s : EngineState) (t : ℤ),
      s.queue = [] → s.is_playing = true → 0 < s.sample_rate → 0 < tempo →
      s.events.Pairwise (fun a b => a.beat_time ≤ b.beat_time) →
      (∀ e ∈ s.events, 0 ≤ e.duration) →
      (∀ p ∈ s.pendingOffs, t < p.absTime) →
      (runOffs s t tempo bs).Perm
        ((s.pendingOffs.filter (fun p => decide (p.absTime ≤ t + (bs.sum : ℤ)))).map
          (fun p => (p.absTime, Action.NoteOff p.pitch p.track)) ++
         (s.events.filter (fun e =>
            decide (beatAt s.sample_rate tempo t ≤ e.beat_time ∧
              e.beat_time < beatAt s.sample_rate tempo (t + (bs.sum : ℤ))) &&
            decide (0 < e.duration ∧
              offOffset s.sample_rate tempo t e ≤ (bs.sum : ℤ)))).map
          (fun e => (t + offOffset s.sample_rate tempo t e, mkOff e))) := by
  induction bs with
  | nil =>
    intro s t hq hpl hsr ht hsort hd hP
    rw [List.sum_nil]
    have h1 : s.pendingOffs.filter (fun p => decide (p.absTime ≤ t + ((0 : ℕ) : ℤ))) = [] := by
      rw [List.filter_eq_nil_iff]
      intro p hp hb
      rw [decide_eq_true_eq] at hb
      have := hP p hp
      omega
    have h2 : s.events.filter (fun e =>
        decide (beatAt s.sample_rate tempo t ≤ e.beat_time ∧
          e.beat_time < beatAt s.sample_rate tempo (t + ((0 : ℕ) : ℤ))) &&
        decide (0 < e.duration ∧
          offOffset s.sample_rate tempo t e ≤ ((0 : ℕ) : ℤ))) = [] := by
      rw [List.filter_eq_nil_iff]
      intro e he hb
      rw [Bool.and_eq_true, decide_eq_true_eq, decide_eq_true_eq] at hb
      obtain ⟨⟨hw1, hw2⟩, _⟩ := hb
      have harg : t + ((0 : ℕ) : ℤ) = t := by push_cast; ring
      rw [harg] at hw2
      exact absurd hw2 (not_lt.mpr hw1)
    rw [h1, h2]
    simp only [List.map_nil, List.append_nil]
    exact List.Perm.refl _
  | cons b rest ih =>
    intro s t hq hpl hsr ht hsort hd hP
    have hbps := beatsPerSample_pos hsr ht
    rw [List.sum_cons]
    -- the first block delivers the due pendings and the in-window offs
    have hF1 : (ctxOffsTimed (ctxOf s t tempo b)).Perm
        ((s.pendingOffs.filter (fun p => decide (p.absTime ≤ t + (b : ℤ)))).map
          (fun p => (p.absTime, Action.NoteOff p.pitch p.track)) ++
         (s.events.filter (fun e =>
            decide (beatAt s.sample_rate tempo t ≤ e.beat_time ∧
              e.beat_time < beatAt s.sample_rate tempo (t + (b : ℤ))) &&
            decide (0 < e.duration ∧ offOffset s.sample_rate tempo t e ≤ (b : ℤ)))).map
          (fun e => (t + offOffset s.sample_rate tempo t e, mkOff e))) :=
      ctxOffsTimed_perm (ctxOf s t tempo b) hsr ht hpl hd hP
    -- the remaining blocks deliver the rest, by the induction hypothesis
    have hIH0 : (runOffs (renderBlock s t tempo b).1 (t + (b : ℤ)) tempo rest).Perm
        (((newPending s t tempo b).filter (fun p =>
            decide (p.absTime ≤ t + (b : ℤ) + (rest.sum : ℤ)))).map
          (fun p => (p.absTime, Action.NoteOff p.pitch p.track)) ++
         (s.events.filter (fun e =>
            decide (beatAt s.sample_rate tempo (t + (b : ℤ)) ≤ e.beat_time ∧
              e.beat_time < beatAt s.sample_rate tempo (t + (b : ℤ) + (rest.sum : ℤ))) &&
            decide (0 < e.duration ∧
              offOffset s.sample_rate tempo (t + (b : ℤ)) e ≤ (rest.sum : ℤ)))).map
          (fun e => (t + (b : ℤ) + offOffset s.sample_rate tempo (t + (b : ℤ)) e, mkOff e))) := by
      rw [renderBlock_nq s t tempo b hq]
      exact ih { s with voices := (runLoop (ctxOf s t tempo b) s.sounds s.voices 0 b).1, pendingOffs := newPending s t tempo b }
        (t + (b : ℤ)) hq hpl hsr ht hsort hd (newPending_lb s t tempo b hpl)
    -- split the delivered pendings of the later blocks into deferred old ones
    -- and deferred in-window offs of the first block
    have hE1 : ((newPending s t tempo b).filter (fun p =>
          decide (p.absTime ≤ t + (b : ℤ) + (rest.sum : ℤ)))).map
          (fun p => (p.absTime, Action.NoteOff p.pitch p.track)) =
        (s.pendingOffs.filter (fun p =>
          !decide (p.absTime ≤ t + (b : ℤ)) &&
            decide (p.absTime ≤ t + ((b + rest.sum : ℕ) : ℤ)))).map
          (fun p => (p.absTime, Action.NoteOff p.pitch p.track)) ++
        (s.events.filter (fun e =>
          decide (beatAt s.sample_rate tempo t ≤ e.beat_time ∧
            e.beat_time < beatAt s.sample_rate tempo (t + (b : ℤ))) &&
          decide (0 < e.duration ∧ (b : ℤ) < offOffset s.sample_rate tempo t e ∧
            offOffset s.sample_rate tempo t e ≤ ((b + rest.sum : ℕ) : ℤ)))).map
          (fun e => (t + offOffset s.sample_rate tempo t e, mkOff e)) := by
      unfold newPending
      rw [if_pos hpl, List.filter_append, List.map_append]
      congr 1
      · rw [List.filter_filter]
        congr 1
        apply List.filter_congr
        intro p _
        rw [Bool.eq_iff_iff]
        simp only [Bool.and_eq_true, Bool.not_eq_true', decide_eq_false_iff_not,
          decide_eq_true_eq]
        omega
      · rw [filter_of_map, List.filter_filter, List.map_map]
        rw [show s.events.filter (fun e =>
            decide ((⟨e.track, e.pitch, t + offOffset s.sample_rate tempo t e⟩ :
              PendingOff).absTime ≤ t + (b : ℤ) + (rest.sum : ℤ)) &&
            (windowedb (ctxOf s t tempo b) e &&
              decide (0 < e.duration ∧ (b : ℤ) < offOffset s.sample_rate tempo t e))) =
          s.events.filter (fun e =>
            decide (beatAt s.sample_rate tempo t ≤ e.beat_time ∧
              e.beat_time < beatAt s.sample_rate tempo (t + (b : ℤ))) &&
            decide (0 < e.duration ∧ (b : ℤ) < offOffset s.sample_rate tempo t e ∧
              offOffset s.sample_rate tempo t e ≤ ((b + rest.sum : ℕ) : ℤ))) from by
          apply List.filter_congr
          intro e _
          rw [Bool.eq_iff_iff]
          simp only [windowedb, ctxOf, Bool.and_eq_true, decide_eq_true_eq]
          constructor
          · rintro ⟨hoffle, ⟨hw1, hw2⟩, hdur, hboff⟩
            exact ⟨⟨hw1, hw2⟩, hdur, hboff, by push_cast at hoffle ⊢; omega⟩
          · rintro ⟨⟨hw1, hw2⟩, hdur, hboff, hle⟩
            exact ⟨by push_cast at hle ⊢; omega, ⟨hw1, hw2⟩, hdur, hboff⟩]
        apply List.map_congr_left
        intro e _
        rfl
    -- shift the later-block scheduled offs to offsets from t
    have hE2 : (s.events.filter (fun e =>
          decide (beatAt s.sample_rate tempo (t + (b : ℤ)) ≤ e.beat_time ∧
            e.beat_time < beatAt s.sample_rate tempo (t + (b : ℤ) + (rest.sum : ℤ))) &&
          decide (0 < e.duration ∧
            offOffset s.sample_rate tempo (t + (b : ℤ)) e ≤ (rest.sum : ℤ)))).map
          (fun e => (t + (b : ℤ) + offOffset s.sample_rate tempo (t + (b : ℤ)) e, mkOff e)) =
        (s.events.filter (fun e =>
          decide (beatAt s.sample_rate tempo (t + (b : ℤ)) ≤ e.beat_time ∧
            e.beat_time < beatAt s.sample_rate tempo (t + ((b + rest.sum : ℕ) : ℤ))) &&
          decide (0 < e.duration ∧
            offOffset s.sample_rate tempo t e ≤ ((b + rest.sum : ℕ) : ℤ)))).map
          (fun e => (t + offOffset s.sample_rate tempo t e, mkOff e)) := by
      rw [show s.events.filter (fun e =>
          decide (beatAt s.sample_rate tempo (t + (b : ℤ)) ≤ e.beat_time ∧
            e.beat_time < beatAt s.sample_rate tempo (t + (b : ℤ) + (rest.sum : ℤ))) &&
          decide (0 < e.duration ∧
            offOffset s.sample_rate tempo (t + (b : ℤ)) e ≤ (rest.sum : ℤ))) =
        s.events.filter (fun e =>
          decide (beatAt s.sample_rate tempo (t + (b : ℤ)) ≤ e.beat_time ∧
            e.beat_time < beatAt s.sample_rate tempo (t + ((b + rest.sum : ℕ) : ℤ))) &&
          decide (0 < e.duration ∧
            offOffset s.sample_rate tempo t e ≤ ((b + rest.sum : ℕ) : ℤ))) from by
        apply List.filter_congr
        intro e _
        rw [offOffset_shift s.sample_rate tempo t (b : ℤ) e hbps.ne']
        rw [show (t + (b : ℤ)) + (rest.sum : ℤ) = t + ((b + rest.sum : ℕ) : ℤ) from by
          push_cast; ring]
        rw [Bool.eq_iff_iff]
        simp only [Bool.and_eq_true, decide_eq_true_eq]
        constructor
        · rintro ⟨hw, hdur, hle⟩
          exact ⟨hw, hdur, by omega⟩
        · rintro ⟨hw, hdur, hle⟩
          exact ⟨hw, hdur, by omega⟩]
      apply List.map_congr_left
      intro e _
      rw [offOffset_shift s.sample_rate tempo t (b : ℤ) e hbps.ne']
      have harg : t + (b : ℤ) + (offOffset s.sample_rate tempo t e - (b : ℤ)) =
          t + offOffset s.sample_rate tempo t e := by ring
      rw [harg]
    -- split the target delivered pendings at the first block boundary
    have hF3 : ((s.pendingOffs.filter (fun p =>
          decide (p.absTime ≤ t + ((b + rest.sum : ℕ) : ℤ)))).map
          (fun p => (p.absTime, Action.NoteOff p.pitch p.track))).Perm
        ((s.pendingOffs.filter (fun p => decide (p.absTime ≤ t + (b : ℤ)))).map
          (fun p => (p.absTime, Action.NoteOff p.pitch p.track)) ++
         (s.pendingOffs.filter (fun p =>
            !decide (p.absTime ≤ t + (b : ℤ)) &&
              decide (p.absTime ≤ t + ((b + rest.sum : ℕ) : ℤ)))).map
          (fun p => (p.absTime, Action.NoteOff p.pitch p.track))) := by
      have hu := filter_union_perm s.pendingOffs
        (fun p => decide (p.absTime ≤ t + ((b + rest.sum : ℕ) : ℤ)))
        (fun p => decide (p.absTime ≤ t + (b : ℤ)))
      have hg1 : s.pendingOffs.filter (fun p =>
          decide (p.absTime ≤ t + (b : ℤ)) &&
            decide (p.absTime ≤ t + ((b + rest.sum : ℕ) : ℤ))) =
          s.pendingOffs.filter (fun p => decide (p.absTime ≤ t + (b : ℤ))) := by
        apply List.filter_congr
        intro p _
        rw [Bool.eq_iff_iff]
        simp only [Bool.and_eq_true, decide_eq_true_eq]
        omega
      rw [hg1] at hu
      have := hu.map (fun p : PendingOff => (p.absTime, Action.NoteOff p.pitch p.track))
      rw [List.map_append] at this
      exact this
    -- split the target scheduled offs at the first block boundary
    have hwinsplit : s.events.filter (fun e =>
          decide (beatAt s.sample_rate tempo t ≤ e.beat_time ∧
            e.beat_time < beatAt s.sample_rate tempo (t + ((b + rest.sum : ℕ) : ℤ))) &&
          decide (0 < e.duration ∧
            offOffset s.sample_rate tempo t e ≤ ((b + rest.sum : ℕ) : ℤ))) =
        s.events.filter (fun e =>
          decide (beatAt s.sample_rate tempo t ≤ e.beat_time ∧
            e.beat_time < beatAt s.sample_rate tempo (t + (b : ℤ))) &&
          decide (0 < e.duration ∧
            offOffset s.sample_rate tempo t e ≤ ((b + rest.sum : ℕ) : ℤ))) ++
        s.events.filter (fun e =>
          decide (beatAt s.sample_rate tempo (t + (b : ℤ)) ≤ e.beat_time ∧
            e.beat_time < beatAt s.sample_rate tempo (t + ((b + rest.sum : ℕ) : ℤ))) &&
          decide (0 < e.duration ∧
            offOffset s.sample_rate tempo t e ≤ ((b + rest.sum : ℕ) : ℤ))) := by
      rw [show s.events.filter (fun e =>
          decide (beatAt s.sample_rate tempo t ≤ e.beat_time ∧
            e.beat_time < beatAt s.sample_rate tempo (t + ((b + rest.sum : ℕ) : ℤ))) &&
          decide (0 < e.duration ∧
            offOffset s.sample_rate tempo t e ≤ ((b + rest.sum : ℕ) : ℤ))) =
        s.events.filter (fun e =>
          (decide (beatAt s.sample_rate tempo t ≤ e.beat_time ∧
             e.beat_time < beatAt s.sample_rate tempo (t + (b : ℤ))) ||
           decide (beatAt s.sample_rate tempo (t + (b : ℤ)) ≤ e.beat_time ∧
             e.beat_time < beatAt s.sample_rate tempo (t + ((b + rest.sum : ℕ) : ℤ)))) &&
          decide (0 < e.duration ∧
            offOffset s.sample_rate tempo t e ≤ ((b + rest.sum : ℕ) : ℤ))) from by
        apply List.filter_congr
        intro e _
        rw [Bool.eq_iff_iff]
        simp only [Bool.and_eq_true, Bool.or_eq_true, decide_eq_true_eq]
        constructor
        · rintro ⟨⟨hw1, hw2⟩, hx⟩
          rcases lt_or_le e.beat_time (beatAt s.sample_rate tempo (t + (b : ℤ))) with hlt | hge
          · exact ⟨Or.inl ⟨hw1, hlt⟩, hx⟩
          · exact ⟨Or.inr ⟨hge, hw2⟩, hx⟩
        · rintro ⟨(⟨hw1, hw2⟩ | ⟨hge, hlt⟩), hx⟩
          · exact ⟨⟨hw1, lt_of_lt_of_le hw2 (beatAt_mono hbps.le (by omega))⟩, hx⟩
          · exact ⟨⟨le_trans (beatAt_mono hbps.le (by omega)) hge, hlt⟩, hx⟩]
      exact filter_split_sorted s.events hsort (beatAt s.sample_rate tempo (t + (b : ℤ)))
        (fun e => decide (beatAt s.sample_rate tempo t ≤ e.beat_time ∧
          e.beat_time < beatAt s.sample_rate tempo (t + (b : ℤ))))
        (fun e => decide (beatAt s.sample_rate tempo (t + (b : ℤ)) ≤ e.beat_time ∧
          e.beat_time < beatAt s.sample_rate tempo (t + ((b + rest.sum : ℕ) : ℤ))))
        (fun e => decide (0 < e.duration ∧
          offOffset s.sample_rate tempo t e ≤ ((b + rest.sum : ℕ) : ℤ)))
        (fun e hpe => by
          rw [decide_eq_true_eq] at hpe
          exact hpe.2)
        (fun e hqe => by
          rw [decide_eq_true_eq] at hqe
          exact hqe.1)
    have hF4 : ((s.events.filter (fun e =>
          decide (beatAt s.sample_rate tempo t ≤ e.beat_time ∧
            e.beat_time < beatAt s.sample_rate tempo (t + (b : ℤ))) &&
          decide (0 < e.duration ∧
            offOffset s.sample_rate tempo t e ≤ ((b + rest.sum : ℕ) : ℤ)))).Perm
        (s.events.filter (fun e =>
          decide (beatAt s.sample_rate tempo t ≤ e.beat_time ∧
            e.beat_time < beatAt s.sample_rate tempo (t + (b : ℤ))) &&
          decide (0 < e.duration ∧ offOffset s.sample_rate tempo t e ≤ (b : ℤ))) ++
         s.events.filter (fun e =>
          decide (beatAt s.sample_rate tempo t ≤ e.beat_time ∧
            e.beat_time < beatAt s.sample_rate tempo (t + (b : ℤ))) &&
          decide (0 < e.duration ∧ (b : ℤ) < offOffset s.sample_rate tempo t e ∧
            offOffset s.sample_rate tempo t e ≤ ((b + rest.sum : ℕ) : ℤ))))) := by
      have hu := filter_union_perm s.events
        (fun e => decide (beatAt s.sample_rate tempo t ≤ e.beat_time ∧
            e.beat_time < beatAt s.sample_rate tempo (t + (b : ℤ))) &&
          decide (0 < e.duration ∧
            offOffset s.sample_rate tempo t e ≤ ((b + rest.sum : ℕ) : ℤ)))
        (fun e => decide (offOffset s.sample_rate tempo t e ≤ (b : ℤ)))
      have hg3 : s.events.filter (fun e =>
          decide (offOffset s.sample_rate tempo t e ≤ (b : ℤ)) &&
            (decide (beatAt s.sample_rate tempo t ≤ e.beat_time ∧
              e.beat_time < beatAt s.sample_rate tempo (t + (b : ℤ))) &&
             decide (0 < e.duration ∧
              offOffset s.sample_rate tempo t e ≤ ((b + rest.sum : ℕ) : ℤ)))) =
          s.events.filter (fun e =>
            decide (beatAt s.sample_rate tempo t ≤ e.beat_time ∧
              e.beat_time < beatAt s.sample_rate tempo (t + (b : ℤ))) &&
            decide (0 < e.duration ∧ offOffset s.sample_rate tempo t e ≤ (b : ℤ))) := by
        apply List.filter_congr
        intro e _
        rw [Bool.eq_iff_iff]
        simp only [Bool.and_eq_true, decide_eq_true_eq]
        constructor
        · rintro ⟨hle, ⟨hw1, hw2⟩, hdur, hN⟩
          exact ⟨⟨hw1, hw2⟩, hdur, hle⟩
        · rintro ⟨⟨hw1, hw2⟩, hdur, hle⟩
          exact ⟨hle, ⟨hw1, hw2⟩, hdur, by omega⟩
      have hg4 : s.events.filter (fun e =>
          !decide (offOffset s.sample_rate tempo t e ≤ (b : ℤ)) &&
            (decide (beatAt s.sample_rate tempo t ≤ e.beat_time ∧
              e.beat_time < beatAt s.sample_rate tempo (t + (b : ℤ))) &&
             decide (0 < e.duration ∧
              offOffset s.sample_rate tempo t e ≤ ((b + rest.sum : ℕ) : ℤ)))) =
          s.events.filter (fun e =>
            decide (beatAt s.sample_rate tempo t ≤ e.beat_time ∧
              e.beat_time < beatAt s.sample_rate tempo (t + (b : ℤ))) &&
            decide (0 < e.duration ∧ (b : ℤ) < offOffset s.sample_rate tempo t e ∧
              offOffset s.sample_rate tempo t e ≤ ((b + rest.sum : ℕ) : ℤ))) := by
        apply List.filter_congr
        intro e _
        rw [Bool.eq_iff_iff]
        simp only [Bool.and_eq_true, Bool.not_eq_true', decide_eq_false_iff_not,
          decide_eq_true_eq]
        constructor
        · rintro ⟨hgt, ⟨hw1, hw2⟩, hdur, hN⟩
          exact ⟨⟨hw1, hw2⟩, hdur, by omega, hN⟩
        · rintro ⟨⟨hw1, hw2⟩, hdur, hgt, hN⟩
          exact ⟨by omega, ⟨hw1, hw2⟩, hdur, hN⟩
      rw [hg3, hg4] at hu
      exact hu
    -- assemble at the level of counts
    rw [List.perm_iff_count]
    intro x
    rw [count_to_countP, count_to_countP]
    have hrw : runOffs s t tempo (b :: rest) =
        ctxOffsTimed (ctxOf s t tempo b) ++
          runOffs (renderBlock s t tempo b).1 (t + (b : ℤ)) tempo rest := rfl
    rw [hrw, List.countP_append, List.countP_append]
    have e1 := hF1.countP_eq (fun a => decide (a = x))
    have e2 := hIH0.countP_eq (fun a => decide (a = x))
    rw [hE1, hE2] at e2
    have e3 := hF3.countP_eq (fun a => decide (a = x))
    have e4 := (hF4.map (fun e => (t + offOffset s.sample_rate tempo t e, mkOff e))).countP_eq
      (fun a => decide (a = x))
    rw [List.map_append] at e4
    rw [hwinsplit, List.map_append]
    simp only [List.countP_append] at e1 e2 e3 e4 ⊢
    omega

/-- C4: note-off pairing and deferral.  Over any consecutive run of render
blocks started with an empty pending-off list, the delivered NoteOffs (with
their absolute sample times) are, as a multiset, exactly one NoteOff per
stored event that is due in the run's beat window, has duration > 0, and
whose computed off sample lies within the run's span, delivered at the
rounded sample of beat beat_time + duration -- independently of the block
partition, never lost and never duplicated; offs falling beyond the span
stay pending. -/
theorem note_off_pairing (s : EngineState) (t : ℤ) (tempo : ℚ) (bs : List ℕ)
    (hq : s.queue = []) (hpl : s.is_playing = true) (hpend : s.pendingOffs = [])
    (hsr : 0 < s.sample_rate) (ht : 0 < tempo)
    (hsort : s.events.Pairwise (fun a b => a.beat_time ≤ b.beat_time))
    (hd : ∀ e ∈ s.events, 0 ≤ e.duration) :
    (runOffs s t tempo bs).Perm
      ((s.events.filter (fun e =>
        decide (beatAt s.sample_rate tempo t ≤ e.beat_time ∧
          e.beat_time < beatAt s.sample_rate tempo (t + (bs.sum : ℤ))) &&
        decide (0 < e.duration ∧
          offOffset s.sample_rate tempo t e ≤ (bs.sum : ℤ)))).map
        (fun e => (t + offOffset s.sample_rate tempo t e, mkOff e))) := by
  have h := runOffs_spec tempo bs s t hq hpl hsr ht hsort hd
    (by rw [hpend]; intro p hp; cases hp)
  rw [hpend] at h
  simpa using h

theorem note_off_pairing_witness :
    (c4State.queue = [] ∧ c4State.is_playing = true ∧ c4State.pendingOffs = [] ∧
     0 < c4State.sample_rate ∧ 0 < (60 : ℚ) ∧
     c4State.events.Pairwise (fun a b => a.beat_time ≤ b.beat_time) ∧
     (∀ e ∈ c4State.events, 0 ≤ e.duration)) ∧
    (runOffs c4State 0 60 [2, 3]).Perm
      ((c4State.events.filter (fun e =>
        decide (beatAt c4State.sample_rate 60 0 ≤ e.beat_time ∧
          e.beat_time < beatAt c4State.sample_rate 60 (0 + (([2, 3] : List ℕ).sum : ℤ))) &&
        decide (0 < e.duration ∧
          offOffset c4State.sample_rate 60 0 e ≤ (([2, 3] : List ℕ).sum : ℤ)))).map
        (fun e => (0 + offOffset c4State.sample_rate 60 0 e, mkOff e))) :=
  ⟨⟨rfl, rfl, rfl, by decide, by decide, by decide, by decide⟩,
   note_off_pairing c4State 0 60 [2, 3] rfl rfl rfl (by decide) (by decide) (by decide)
     (by decide)⟩

end CP3
